import Mathlib

/-!
# Verification of the dagit branch-stacking tool

Shallow embedding of the core of the `dagit` repository (src/dag.rs,
src/git.rs, src/main.rs, src/serde.rs) together with proofs about the
claims of its specification.

Conventions of the embedding:
* `usize` ids are modelled as `Nat` (ids are small and never overflow in
  any reachable scenario; Rust would abort on overflow).
* `HashMap<BranchId, Branch>` is modelled as an association list
  `List (Nat × Branch)`; iteration order of the Rust hash map is
  arbitrary, the list order is our fixed choice of that order.
* `HashSet<BranchId>` is modelled as a `List Nat` used only through
  membership and insertion.
* External processes (git, gh) are modelled by a `GitOracle` record of
  response functions; fallible calls return `Except String`.
* Rust `panic!` / `todo!` / `.unwrap()` failure is modelled by functions
  returning `Option`, with `none` for the panic.
* Apostrophes/quotes inside Rust error message literals are elided
  (the file format forbids them); no claim depends on those characters.
-/

/-- The Branch node of the graph store (src/dag.rs).
Field `pr_number` is referenced throughout src/git.rs and src/main.rs but
its declaration is absent from the dag.rs snapshot; it is
Modelled from the spec: "pr_number: optional external identifier"
(an `Option<usize>` set by the PR synchronizer). -/
structure Branch where
  uid : Nat
  parents : List Nat
  children : List Nat
  git_name : String
  last_failed_rebase : Option String
  pr_number : Option Nat
deriving Repr, DecidableEq

/-- `Branch::with_id` (src/dag.rs): fresh branch with empty adjacency. -/
def Branch.with_id (uid : Nat) (git_name : String) : Branch :=
  { uid := uid, parents := [], children := [], git_name := git_name,
    last_failed_rebase := none, pr_number := none }

/-- The graph store `Dag` (src/dag.rs). -/
structure Dag where
  branches : List (Nat × Branch)
  next_branch_id : Nat
deriving Repr, DecidableEq

/-- First-match association-list lookup (the `HashMap::get` of the model). -/
def alookup {α : Type} (k : Nat) : List (Nat × α) → Option α
  | [] => none
  | (k', v) :: rest => if k' = k then some v else alookup k rest

/-- Insert-or-replace for the association list (the `HashMap::insert`). -/
def ainsert {α : Type} (k : Nat) (v : α) : List (Nat × α) → List (Nat × α)
  | [] => [(k, v)]
  | (k', v') :: rest => if k' = k then (k, v) :: rest else (k', v') :: ainsert k v rest

/-- `Dag::new`. -/
def Dag.new : Dag := { branches := [], next_branch_id := 1 }

/-- `Dag::create_branch`: allocate the next id, insert a fresh branch. -/
def Dag.create_branch (g : Dag) (git_name : String) : Dag × Nat :=
  let branch_id := g.next_branch_id
  let branch := Branch.with_id branch_id git_name
  ({ branches := ainsert branch_id branch g.branches,
     next_branch_id := g.next_branch_id + 1 }, branch_id)

/-- `Dag::insert_branch`: insert a branch that already carries an id,
advancing the counter past it. -/
def Dag.insert_branch (g : Dag) (branch : Branch) : Dag :=
  { branches := ainsert branch.uid branch g.branches,
    next_branch_id := max g.next_branch_id (branch.uid + 1) }

/-- `Dag::get_branch`. -/
def Dag.getBranch (g : Dag) (uid : Nat) : Option Branch :=
  alookup uid g.branches

/-- `Dag::get_branch_mut` followed by a mutation `f` of the branch;
a no-op when the id is absent (mirroring `if let Some(b) = get_mut`). -/
def Dag.modifyBranch (g : Dag) (uid : Nat) (f : Branch → Branch) : Dag :=
  { g with branches := g.branches.map (fun kv => if kv.1 = uid then (kv.1, f kv.2) else kv) }

/-- `Dag::remove_branch` (the returned branch is discarded at every call
site relevant here). -/
def Dag.removeBranch (g : Dag) (uid : Nat) : Dag :=
  { g with branches := g.branches.filter (fun kv => decide (kv.1 ≠ uid)) }

/-- `Dag::contains_branch`. -/
def Dag.containsBranch (g : Dag) (uid : Nat) : Bool :=
  (g.getBranch uid).isSome

/-- `Dag::len`. -/
def Dag.len (g : Dag) : Nat := g.branches.length

/-- `Dag::is_empty`. -/
def Dag.isEmpty (g : Dag) : Bool := g.branches.isEmpty

/-- `Dag::find_branch_by_name`: first branch (in iteration order) with the
given git name. -/
def Dag.find_branch_by_name (g : Dag) (git_name : String) : Option Branch :=
  (g.branches.find? (fun kv => kv.2.git_name == git_name)).map Prod.snd

/-- `Dag::get_tracked_branch_names`. -/
def Dag.get_tracked_branch_names (g : Dag) : List String :=
  g.branches.map (fun kv => kv.2.git_name)

/-- The list of ids present in the graph. -/
def Dag.keys (g : Dag) : List Nat := g.branches.map Prod.fst

/-- Push `parent_id` onto the parents list if not already present
(the first half of the add-edge body). -/
def addParentTo (parent_id : Nat) (b : Branch) : Branch :=
  if parent_id ∈ b.parents then b else { b with parents := b.parents ++ [parent_id] }

/-- Push `child_id` onto the children list if not already present
(the second half of the add-edge body). -/
def addChildTo (child_id : Nat) (b : Branch) : Branch :=
  if child_id ∈ b.children then b else { b with children := b.children ++ [child_id] }

/-- `Dag::add_parent_child_relationship_by_id` (src/dag.rs lines 138-162):
verify both ids exist, then push `parent_id` onto the parents of
`child_id` and `child_id` onto the children of `parent_id`, each only if
not already present. -/
def Dag.add_parent_child_relationship_by_id (g : Dag) (child_id parent_id : Nat) :
    Except String Dag :=
  if ¬ g.containsBranch child_id then
    .error ("Child branch with ID " ++ toString child_id ++ " not found in DAG")
  else if ¬ g.containsBranch parent_id then
    .error ("Parent branch with ID " ++ toString parent_id ++ " not found in DAG")
  else
    let g1 := g.modifyBranch child_id (addParentTo parent_id)
    let g2 := g1.modifyBranch parent_id (addChildTo child_id)
    .ok g2

/-- `Dag::add_parent_child_relationship` (by git name, src/dag.rs lines
110-135): resolve both names to the `uid` field of the first matching
branch, then perform the same two conditional pushes (no second existence
check — `if let Some(get_mut)` is silently a no-op on a missing id). -/
def Dag.add_parent_child_relationship (g : Dag) (child_name parent_name : String) :
    Except String Dag :=
  match g.find_branch_by_name child_name with
  | none => .error ("Child branch " ++ child_name ++ " not found in DAG")
  | some cb =>
    match g.find_branch_by_name parent_name with
    | none => .error ("Parent branch " ++ parent_name ++ " not found in DAG")
    | some pb =>
      let child_id := cb.uid
      let parent_id := pb.uid
      let g1 := g.modifyBranch child_id (addParentTo parent_id)
      let g2 := g1.modifyBranch parent_id (addChildTo child_id)
      .ok g2

/-- The parents list of the branch stored at `uid` (empty when absent). -/
def Dag.parentsOf (g : Dag) (uid : Nat) : List Nat :=
  match g.getBranch uid with
  | some b => b.parents
  | none => []

/-- The children list of the branch stored at `uid` (empty when absent). -/
def Dag.childrenOf (g : Dag) (uid : Nat) : List Nat :=
  match g.getBranch uid with
  | some b => b.children
  | none => []

/-- The error message of `topological_sort` on a cycle. -/
def cycleErrorMsg : String :=
  "Cycle detected in DAG - topological sort not possible"

/-- One step of the child loop of Kahn's algorithm: decrement the
in-degree entry of `c` (if present) and enqueue `c` when it reaches zero
(`*degree -= 1; if *degree == 0 push_back`). -/
def processChild (inDeg : List (Nat × Nat)) (queue : List Nat) (c : Nat) :
    List (Nat × Nat) × List Nat :=
  match alookup c inDeg with
  | none => (inDeg, queue)
  | some d =>
    (inDeg.map (fun kv => if kv.1 = c then (kv.1, kv.2 - 1) else kv),
     if d - 1 = 0 then queue ++ [c] else queue)

/-- The `for &child_id in &current_branch.children` loop. -/
def processChildren : List Nat → List (Nat × Nat) → List Nat →
    List (Nat × Nat) × List Nat
  | [], inDeg, queue => (inDeg, queue)
  | c :: cs, inDeg, queue =>
    let st := processChild inDeg queue c
    processChildren cs st.1 st.2

/-- The `while let Some(current_id) = queue.pop_front()` loop of
`Dag::topological_sort`, with fuel (the fuel provably suffices on
well-formed graphs, see `topoLoop_spec`). -/
def topoLoop (g : Dag) : Nat → List Nat → List (Nat × Nat) → List Nat → List Nat
  | 0, _, _, result => result
  | _ + 1, [], _, result => result
  | fuel + 1, cur :: rest, inDeg, result =>
    match g.getBranch cur with
    | none => topoLoop g fuel rest inDeg (result ++ [cur])
    | some br =>
      let st := processChildren br.children inDeg rest
      topoLoop g fuel st.2 st.1 (result ++ [cur])

/-- `Dag::topological_sort` (src/dag.rs lines 166-202): Kahn's algorithm
seeded from `parents.len()` in-degrees, error iff fewer than `len` nodes
are emitted. -/
def Dag.topological_sort (g : Dag) : Except String (List Nat) :=
  let inDeg := g.branches.map (fun kv => (kv.1, kv.2.parents.length))
  let queue := (g.branches.filter (fun kv => kv.2.parents.isEmpty)).map Prod.fst
  let result := topoLoop g (g.branches.length + 1) queue inDeg []
  if result.length = g.branches.length then .ok result
  else .error cycleErrorMsg

/-- Serde layer (src/serde.rs): the persisted store is the content of
`.dagit/dag.json`, here a value of type `Option Dag` (`none` for a
missing or empty file).  `write_dag_to_file` rewrites it in full.
Modelled from the spec: the JSON encode/decode pair produced by the
serde derive on `Dag` (including the private `next_branch_id` field) is
treated as a lossless inverse pair, so the stored document is modelled
by the `Dag` value itself. -/
def write_dag_to_file (g : Dag) : Option Dag := some g

/-- `read_dag_from_file`: a missing (or empty) file deserializes to the
empty graph, never an error. -/
def read_dag_from_file (store : Option Dag) : Dag :=
  match store with
  | none => Dag.new
  | some g => g

/-! ## The external git / gh collaborators (src/git.rs) -/

/-- Outcome of one `git rebase` attempt inside `rebase_branch`,
as observed through the exit codes of the three process invocations
(checkout, rebase, rebase --abort). -/
inductive RebaseOutcome where
  | success
  | checkoutFailed
  | conflictAbortOk
  | conflictAbortFailed
deriving Repr, DecidableEq

/-- `RebaseOriginError` (src/git.rs). -/
inductive RebaseOriginError where
  | originDoesntExist
  | other (msg : String)
deriving Repr, DecidableEq

/-- Events recording which external commands a run actually issued
(the observable footprint of the mock git used by the proofs). -/
inductive GitEvent where
  | originCheck (branch : String)
  | rebaseAttempt (branch target : String)
  | ancestorCheck (ancestor descendant : String)
  | prEditCall (pr : Nat) (base : String)
deriving Repr, DecidableEq

/-- The stateless external collaborators: git ancestry/rebase queries and
the gh pull-request commands, each keyed by the strings the code passes
on the command line. -/
structure GitOracle where
  /-- `git rev-parse --verify origin/<name>`: `.error` for a spawn
  failure, `.ok b` for existence `b` of the origin counterpart. -/
  originCheck : String → Except String Bool
  /-- outcome of `rebase_branch` on (branch git name, target). -/
  rebaseOutcome : String → String → RebaseOutcome
  /-- `git merge-base --is-ancestor a b` (spawn failure = `.error`). -/
  isAncestor : String → String → Except String Bool
  /-- `git rev-list --count from..to` parsed as u32. -/
  commitDistance : String → String → Except String Nat
  /-- `gh pr create --base _ --head _` together with the URL parse:
  the created PR number, or an error. -/
  prCreate : String → String → Except String Nat
  /-- `gh pr edit <n> --base <base>`. -/
  prEdit : Nat → String → Except String Unit
  /-- `git fetch origin`. -/
  fetchResult : Except String Unit

/-- `rebase_branch` (src/git.rs lines 212-261): checkout, rebase, abort on
conflict.  Only a conflict whose abort succeeds stamps
`last_failed_rebase`; a successful rebase clears it; a checkout failure
or a failed abort leaves it untouched. -/
def rebase_branch (o : GitOracle) (branch : Branch) (target_branch : String) :
    Branch × Except String Unit :=
  match o.rebaseOutcome branch.git_name target_branch with
  | .checkoutFailed =>
    (branch, .error ("Failed to checkout branch " ++ branch.git_name))
  | .conflictAbortFailed =>
    (branch, .error "Rebase failed and abort also failed")
  | .conflictAbortOk =>
    ({ branch with last_failed_rebase := some target_branch },
     .error ("Rebase of " ++ branch.git_name ++ " onto " ++ target_branch ++
       " failed with conflicts"))
  | .success =>
    ({ branch with last_failed_rebase := none }, .ok ())

/-- `rebase_against_origin` (src/git.rs lines 280-296): check that
`origin/<name>` exists, then delegate to `rebase_branch`.  Also returns
the trace of issued commands. -/
def rebase_against_origin (o : GitOracle) (branch : Branch) :
    Branch × Option RebaseOriginError × List GitEvent :=
  let origin_branch := "origin/" ++ branch.git_name
  match o.originCheck branch.git_name with
  | .error e =>
    (branch, some (.other ("Failed to check if origin branch exists: " ++ e)),
     [.originCheck branch.git_name])
  | .ok false =>
    (branch, some .originDoesntExist, [.originCheck branch.git_name])
  | .ok true =>
    let r := rebase_branch o branch origin_branch
    (r.1,
     match r.2 with
     | .ok _ => none
     | .error e => some (.other e),
     [.originCheck branch.git_name, .rebaseAttempt branch.git_name origin_branch])

/-- `update_pr_target` (src/git.rs lines 419-442). -/
def update_pr_target (o : GitOracle) (branch : Branch) (new_target_branch : String) :
    Except String Unit × List GitEvent :=
  match branch.pr_number with
  | none =>
    (.error ("Branch " ++ branch.git_name ++ " does not have an associated pull request"),
     [])
  | some pr_number =>
    (o.prEdit pr_number new_target_branch, [.prEditCall pr_number new_target_branch])

/-- `update_pr_target_for_branch` (src/git.rs lines 405-413). -/
def update_pr_target_for_branch (o : GitOracle) (branch_id : Nat) (g : Dag)
    (new_target_branch : String) : Except String Unit × List GitEvent :=
  match g.getBranch branch_id with
  | none => (.error ("Branch with ID " ++ toString branch_id ++ " not found in DAG"), [])
  | some b => update_pr_target o b new_target_branch

/-- `create_pr_if_needed` (src/git.rs lines 356-399): no-op returning the
existing number when `pr_number` is set, otherwise create the PR and
record the parsed number on the branch. -/
def create_pr_if_needed (o : GitOracle) (branch : Branch) (target_branch : String) :
    Branch × Except String Nat :=
  match branch.pr_number with
  | some pr_number => (branch, .ok pr_number)
  | none =>
    match o.prCreate branch.git_name target_branch with
    | .error e => (branch, .error e)
    | .ok pr_number => ({ branch with pr_number := some pr_number }, .ok pr_number)

/-- `create_pr_for_branch` (src/git.rs lines 303-351).  `none` models the
`todo!` panic on more than one parent; otherwise the optional created PR
number (or error) together with the possibly updated graph. -/
def create_pr_for_branch (o : GitOracle) (branch_id : Nat) (g : Dag) :
    Option (Except String (Option Nat) × Dag) :=
  match g.getBranch branch_id with
  | none =>
    some (.error ("Branch with ID " ++ toString branch_id ++ " not found in DAG"), g)
  | some branch =>
    if branch.pr_number.isSome then some (.ok none, g)
    else if branch.parents.length > 1 then none
    else
      match branch.parents.head? with
      | some parent_id =>
        match g.getBranch parent_id with
        | none =>
          some (.error ("Parent branch with ID " ++ toString parent_id ++
            " not found in DAG"), g)
        | some parent_branch =>
          let target := parent_branch.git_name
          let r := create_pr_if_needed o branch target
          match r.2 with
          | .ok n => some (.ok (some n), g.modifyBranch branch_id (fun _ => r.1))
          | .error e => some (.error e, g)
      | none => some (.ok none, g)

/-- The sentinel `u32::MAX` initial value of `min_distance`. -/
def u32MAX : Nat := 4294967295

/-- The candidate loop of `find_closest_parent` (src/git.rs lines
140-161), carrying `closest_parent` and `min_distance`. -/
def fcpLoop (o : GitOracle) (target_branch : String) :
    List String → Option String → Nat → Except String (Option String)
  | [], closest, _ => .ok closest
  | c :: cs, closest, minD =>
    if c = target_branch then fcpLoop o target_branch cs closest minD
    else
      match o.isAncestor c target_branch with
      | .error e => .error e
      | .ok false => fcpLoop o target_branch cs closest minD
      | .ok true =>
        match o.commitDistance c target_branch with
        | .error e => .error e
        | .ok d =>
          if 0 < d ∧ d < minD then fcpLoop o target_branch cs (some c) d
          else fcpLoop o target_branch cs closest minD

/-- `find_closest_parent`. -/
def find_closest_parent (o : GitOracle) (target_branch : String)
    (candidate_branches : List String) : Except String (Option String) :=
  fcpLoop o target_branch candidate_branches none u32MAX

/-! ## The rebase orchestrator (src/main.rs) -/

/-- `HashSet::insert` for the list-modelled sets. -/
def insertSet (l : List Nat) (x : Nat) : List Nat :=
  if x ∈ l then l else l ++ [x]

/-- The `for child_id in children` reparenting loop inside the prune step
of `update_branch` (src/main.rs lines 330-349).  Faithfully keeps the
call `dag.add_parent_child_relationship_by_id(parent_id, child_id)` of
the source, whose first argument is the `child_id` parameter of the
callee — i.e. the matched prune parent is passed in child position.
`none` models the `.unwrap()` panic. -/
def dropParent (branch_id : Nat) (b : Branch) : Branch :=
  { b with parents := b.parents.filter (fun p => decide (p ≠ branch_id)) }

/-- `parent_mut.children.retain(|&c| c != branch_id)` as a branch map. -/
def dropChild (branch_id : Nat) (b : Branch) : Branch :=
  { b with children := b.children.filter (fun c => decide (c ≠ branch_id)) }

/-- The `for child_id in children` reparenting loop body, continued. -/
def childLoop (o : GitOracle) (branch_id parent_id : Nat) (parent_name : String) :
    List Nat → Dag → List GitEvent → Option (Dag × List GitEvent)
  | [], g, evs => some (g, evs)
  | child_id :: cs, g, evs =>
    match g.getBranch child_id with
    | none => childLoop o branch_id parent_id parent_name cs g evs
    | some _ =>
      let g1 := g.modifyBranch child_id (dropParent branch_id)
      match g1.add_parent_child_relationship_by_id parent_id child_id with
      | .error _ => none
      | .ok g2 =>
        let pr := update_pr_target_for_branch o child_id g2 parent_name
        childLoop o branch_id parent_id parent_name cs g2 (evs ++ pr.2)

/-- The `for &parent_id in &branch_parents` redundancy-prune loop of
`update_branch` (src/main.rs lines 296-357).  Returns the graph, whether
the branch was pruned, and the accumulated command trace. -/
def pruneLoop (o : GitOracle) (g : Dag) (branch_id : Nat) (branch_name : String)
    (branch_parents : List Nat) :
    List Nat → List GitEvent → Option (Dag × Bool × List GitEvent)
  | [], evs => some (g, false, evs)
  | parent_id :: rest, evs =>
    match g.getBranch parent_id with
    | none => pruneLoop o g branch_id branch_name branch_parents rest evs
    | some parent_branch =>
      let parent_name := parent_branch.git_name
      let isAnc : Bool :=
        match o.isAncestor parent_name branch_name with
        | .ok result => result
        | .error _ => false
      let evs1 := evs ++ [.ancestorCheck parent_name branch_name]
      if isAnc then
        let children :=
          match g.getBranch branch_id with
          | some b => b.children
          | none => []
        let g1 := g.removeBranch branch_id
        let g2 := branch_parents.foldl (fun acc p =>
          acc.modifyBranch p (dropChild branch_id)) g1
        match childLoop o branch_id parent_id parent_name children g2 evs1 with
        | none => none
        | some r => some (r.1, true, r.2)
      else pruneLoop o g branch_id branch_name branch_parents rest evs1

/-- `update_branch` (src/main.rs lines 205-359): skip check against the
`failed` set, remote sync, single-parent rebase, failure recording, and
the redundancy prune.  `none` models the `todo!` panic on multiple
parents and the `.unwrap()` panic inside the prune. -/
def update_branch (o : GitOracle) (g : Dag) (branch_id : Nat)
    (failed skipped : List Nat) :
    Option (Dag × List Nat × List Nat × List GitEvent) :=
  match g.getBranch branch_id with
  | none => some (g, failed, skipped, [])
  | some branch =>
    let branch_name := branch.git_name
    let branch_parents := branch.parents
    if branch_parents.any (fun p => decide (p ∈ failed)) then
      some (g, failed, insertSet skipped branch_id, [])
    else
      let afterRebases := fun (g' : Dag) (branch_failed : Bool) (evs : List GitEvent) =>
        if branch_failed then
          some (g', insertSet failed branch_id, skipped, evs)
        else
          match pruneLoop o g' branch_id branch_name branch_parents branch_parents evs with
          | none => none
          | some (g'', pruned, evs') =>
            if pruned then some (g'', failed, insertSet skipped branch_id, evs')
            else some (g'', failed, skipped, evs')
      let step1 := rebase_against_origin o branch
      let g1 := g.modifyBranch branch_id (fun _ => step1.1)
      let evs1 := step1.2.2
      let failed1 : Bool :=
        match step1.2.1 with
        | some (.other _) => true
        | some .originDoesntExist => false
        | none => false
      if failed1 then
        some (g1, insertSet failed branch_id, skipped, evs1)
      else
        match branch_parents with
        | [] => afterRebases g1 false evs1
        | first_parent_id :: restParents =>
          if restParents.length > 0 then none
          else
            match g1.getBranch first_parent_id with
            | none => some (g1, failed, skipped, evs1)
            | some parent_branch =>
              let parent_name := parent_branch.git_name
              match g1.getBranch branch_id with
              | none => afterRebases g1 false evs1
              | some bcur =>
                let r2 := rebase_branch o bcur parent_name
                let g2 := g1.modifyBranch branch_id (fun _ => r2.1)
                let evs2 := evs1 ++ [.rebaseAttempt bcur.git_name parent_name]
                let failed2 : Bool :=
                  match r2.2 with
                  | .ok _ => false
                  | .error _ => true
                afterRebases g2 failed2 evs2

/-- The `for &branch_id in &sorted_branch_ids` loop of
`handle_update_command`. -/
def updateLoop (o : GitOracle) :
    List Nat → Dag → List Nat → List Nat → Option (Dag × List Nat × List Nat)
  | [], g, failed, skipped => some (g, failed, skipped)
  | id :: rest, g, failed, skipped =>
    match update_branch o g id failed skipped with
    | none => none
    | some r => updateLoop o rest r.1 r.2.1 r.2.2.1

/-- `handle_update_command` (src/main.rs lines 361-430), up to printing:
loading is left to the caller, the empty graph returns untouched, fetch or
cycle failure aborts (modelled `none`), otherwise the topologically
ordered sweep runs with empty `failed` / `skipped` sets. -/
def handle_update (o : GitOracle) (g : Dag) : Option (Dag × List Nat × List Nat) :=
  if g.isEmpty then some (g, [], [])
  else
    match o.fetchResult with
    | .error _ => none
    | .ok _ =>
      match g.topological_sort with
      | .error _ => none
      | .ok sorted => updateLoop o sorted g [] []

/-! ## Basic lemmas about the association-list graph store -/


theorem alookup_map_if {α : Type} (l : List (Nat × α)) (i k : Nat) (f : α → α) :
    alookup k (l.map (fun kv => if kv.1 = i then (kv.1, f kv.2) else kv)) =
      if k = i then (alookup k l).map f else alookup k l := by
  induction l with
  | nil => simp [alookup]
  | cons kv rest ih =>
    obtain ⟨k', v⟩ := kv
    simp only [List.map_cons]
    by_cases h1 : k' = i
    · subst h1
      rw [show ((if (k', v).1 = k' then ((k', v).1, f (k', v).2) else (k', v))) = (k', f v)
        from by rw [if_pos rfl]]
      by_cases h2 : k' = k
      · subst h2
        rw [show alookup k' (((k' : Nat), f v) :: List.map
            (fun kv => if kv.1 = k' then (kv.1, f kv.2) else kv) rest) = some (f v)
          from by rw [alookup, if_pos rfl]]
        rw [show (alookup k' (((k' : Nat), v) :: rest)) = some v
          from by rw [alookup, if_pos rfl]]
        rw [if_pos rfl]
        rfl
      · have h2' : ¬ k = k' := fun hc => h2 hc.symm
        rw [show alookup k (((k' : Nat), f v) :: List.map
            (fun kv => if kv.1 = k' then (kv.1, f kv.2) else kv) rest) =
            alookup k (List.map (fun kv => if kv.1 = k' then (kv.1, f kv.2) else kv) rest)
          from by rw [alookup, if_neg h2]]
        rw [show (alookup k (((k' : Nat), v) :: rest)) = alookup k rest
          from by rw [alookup, if_neg h2]]
        exact ih
    · rw [show ((if (k', v).1 = i then ((k', v).1, f (k', v).2) else (k', v))) = (k', v)
        from by rw [if_neg h1]]
      by_cases h2 : k' = k
      · subst h2
        have hki : ¬ k' = i := h1
        rw [show alookup k' (((k' : Nat), v) :: List.map
            (fun kv => if kv.1 = i then (kv.1, f kv.2) else kv) rest) = some v
          from by rw [alookup, if_pos rfl]]
        rw [show (alookup k' (((k' : Nat), v) :: rest)) = some v
          from by rw [alookup, if_pos rfl]]
        rw [if_neg hki]
      · rw [show alookup k (((k' : Nat), v) :: List.map
            (fun kv => if kv.1 = i then (kv.1, f kv.2) else kv) rest) =
            alookup k (List.map (fun kv => if kv.1 = i then (kv.1, f kv.2) else kv) rest)
          from by rw [alookup, if_neg h2]]
        rw [show (alookup k (((k' : Nat), v) :: rest)) = alookup k rest
          from by rw [alookup, if_neg h2]]
        exact ih

theorem getBranch_modifyBranch (g : Dag) (i k : Nat) (f : Branch → Branch) :
    (g.modifyBranch i f).getBranch k =
      if k = i then (g.getBranch k).map f else g.getBranch k := by
  unfold Dag.modifyBranch Dag.getBranch
  exact alookup_map_if g.branches i k f

theorem alookup_filter_ne {α : Type} (l : List (Nat × α)) (i k : Nat) :
    alookup k (l.filter (fun kv => decide (kv.1 ≠ i))) =
      if k = i then none else alookup k l := by
  induction l with
  | nil => simp [alookup]
  | cons kv rest ih =>
    obtain ⟨k', v⟩ := kv
    by_cases h1 : k' = i
    · subst h1
      rw [show List.filter (fun kv => decide (kv.1 ≠ k')) (((k' : Nat), v) :: rest) =
          List.filter (fun kv => decide (kv.1 ≠ k')) rest
        from by simp [List.filter_cons]]
      by_cases h2 : k = k'
      · subst h2
        rw [if_pos rfl] at ih ⊢
        exact ih
      · rw [if_neg h2] at ih ⊢
        rw [show (alookup k (((k' : Nat), v) :: rest)) = alookup k rest
          from by rw [alookup, if_neg (fun hc : k' = k => h2 hc.symm)]]
        exact ih
    · rw [show List.filter (fun kv => decide (kv.1 ≠ i)) (((k' : Nat), v) :: rest) =
          ((k' : Nat), v) :: List.filter (fun kv => decide (kv.1 ≠ i)) rest
        from by simp [List.filter_cons, h1]]
      by_cases h2 : k' = k
      · subst h2
        have hki : ¬ k' = i := h1
        rw [show alookup k' (((k' : Nat), v) :: List.filter
            (fun kv => decide (kv.1 ≠ i)) rest) = some v
          from by rw [alookup, if_pos rfl]]
        rw [show (alookup k' (((k' : Nat), v) :: rest)) = some v
          from by rw [alookup, if_pos rfl]]
        rw [if_neg hki]
      · rw [show alookup k (((k' : Nat), v) :: List.filter
            (fun kv => decide (kv.1 ≠ i)) rest) =
            alookup k (List.filter (fun kv => decide (kv.1 ≠ i)) rest)
          from by rw [alookup, if_neg h2]]
        rw [show (alookup k (((k' : Nat), v) :: rest)) = alookup k rest
          from by rw [alookup, if_neg h2]]
        exact ih

theorem getBranch_removeBranch (g : Dag) (i k : Nat) :
    (g.removeBranch i).getBranch k = if k = i then none else g.getBranch k := by
  unfold Dag.removeBranch Dag.getBranch
  exact alookup_filter_ne g.branches i k

theorem alookup_mem {α : Type} {l : List (Nat × α)} {k : Nat} {v : α}
    (h : alookup k l = some v) : (k, v) ∈ l := by
  induction l with
  | nil => simp [alookup] at h
  | cons kv rest ih =>
    obtain ⟨k', v'⟩ := kv
    by_cases h1 : k' = k
    · subst h1
      rw [show alookup k' (((k' : Nat), v') :: rest) = some v'
        from by rw [alookup, if_pos rfl]] at h
      rw [show v = v' from (Option.some.injEq _ _ ▸ h).symm]
      exact List.mem_cons_self _ _
    · rw [show alookup k (((k' : Nat), v') :: rest) = alookup k rest
        from by rw [alookup, if_neg h1]] at h
      exact List.mem_cons_of_mem _ (ih h)

theorem alookup_isSome_iff_mem_keys {α : Type} (l : List (Nat × α)) (k : Nat) :
    (alookup k l).isSome = true ↔ k ∈ l.map Prod.fst := by
  induction l with
  | nil => simp [alookup]
  | cons kv rest ih =>
    obtain ⟨k', v'⟩ := kv
    by_cases h1 : k' = k
    · subst h1
      rw [show alookup k' (((k' : Nat), v') :: rest) = some v'
        from by rw [alookup, if_pos rfl]]
      simp
    · rw [show alookup k (((k' : Nat), v') :: rest) = alookup k rest
        from by rw [alookup, if_neg h1]]
      rw [ih]
      simp only [List.map_cons, List.mem_cons]
      constructor
      · exact Or.inr
      · rintro (h | h)
        · exact absurd h.symm h1
        · exact h

theorem alookup_eq_some_of_mem {α : Type} {l : List (Nat × α)} {k : Nat} {v : α}
    (hnd : (l.map Prod.fst).Nodup) (hm : (k, v) ∈ l) : alookup k l = some v := by
  induction l with
  | nil => simp at hm
  | cons kv rest ih =>
    obtain ⟨k', v'⟩ := kv
    simp only [List.map_cons, List.nodup_cons] at hnd
    rcases List.mem_cons.mp hm with h | h
    · have hk : k = k' := congrArg Prod.fst h
      have hv : v = v' := congrArg Prod.snd h
      subst hk
      subst hv
      rw [alookup, if_pos rfl]
    · have hk : ¬ k' = k := by
        intro hc
        subst hc
        exact hnd.1 (List.mem_map.mpr ⟨(k', v), h, rfl⟩)
      rw [alookup, if_neg hk]
      exact ih hnd.2 h

theorem map_eq_self_of_id {α : Type} (l : List α) (F : α → α)
    (h : ∀ x ∈ l, F x = x) : l.map F = l := by
  induction l with
  | nil => rfl
  | cons x rest ih =>
    simp only [List.map_cons, h x (List.mem_cons_self _ _),
      ih (fun y hy => h y (List.mem_cons_of_mem _ hy))]

theorem keys_modifyBranch (g : Dag) (i : Nat) (f : Branch → Branch) :
    (g.modifyBranch i f).keys = g.keys := by
  unfold Dag.modifyBranch Dag.keys
  simp only [List.map_map]
  apply List.map_congr_left
  intro kv _
  by_cases h : kv.1 = i <;> simp [h]

theorem mem_insertSet (l : List Nat) (x y : Nat) :
    y ∈ insertSet l x ↔ y ∈ l ∨ y = x := by
  unfold insertSet
  by_cases h : x ∈ l
  · rw [if_pos h]
    constructor
    · exact Or.inl
    · rintro (hy | rfl)
      · exact hy
      · exact h
  · rw [if_neg h]
    simp

theorem containsBranch_modifyBranch (g : Dag) (i k : Nat) (f : Branch → Branch) :
    (g.modifyBranch i f).containsBranch k = g.containsBranch k := by
  unfold Dag.containsBranch
  rw [getBranch_modifyBranch]
  by_cases h : k = i
  · rw [if_pos h]
    cases g.getBranch k <;> rfl
  · rw [if_neg h]

theorem modifyBranch_eq_self (g : Dag) (i : Nat) (f : Branch → Branch)
    (h : ∀ kv ∈ g.branches, kv.1 = i → f kv.2 = kv.2) : g.modifyBranch i f = g := by
  obtain ⟨br, nx⟩ := g
  unfold Dag.modifyBranch
  simp only [Dag.mk.injEq, and_true]
  apply map_eq_self_of_id
  intro kv hkv
  by_cases hk : kv.1 = i
  · rw [if_pos hk, h kv hkv hk]
  · rw [if_neg hk]

theorem mem_parents_addParentTo (p : Nat) (b : Branch) : p ∈ (addParentTo p b).parents := by
  unfold addParentTo
  by_cases h : p ∈ b.parents
  · rw [if_pos h]; exact h
  · rw [if_neg h]; simp

theorem mem_children_addChildTo (c : Nat) (b : Branch) : c ∈ (addChildTo c b).children := by
  unfold addChildTo
  by_cases h : c ∈ b.children
  · rw [if_pos h]; exact h
  · rw [if_neg h]; simp

theorem addChildTo_parents (c : Nat) (b : Branch) : (addChildTo c b).parents = b.parents := by
  unfold addChildTo
  by_cases h : c ∈ b.children
  · rw [if_pos h]
  · rw [if_neg h]

theorem addParentTo_children (p : Nat) (b : Branch) : (addParentTo p b).children = b.children := by
  unfold addParentTo
  by_cases h : p ∈ b.parents
  · rw [if_pos h]
  · rw [if_neg h]

/-- After the two conditional pushes of an add-edge, every stored entry
keyed `c` lists `p` among its parents and every entry keyed `p` lists
`c` among its children. -/
theorem addCore_mem (g : Dag) (c p : Nat) :
    ∀ kv ∈ ((g.modifyBranch c (addParentTo p)).modifyBranch p (addChildTo c)).branches,
      (kv.1 = c → p ∈ kv.2.parents) ∧ (kv.1 = p → c ∈ kv.2.children) := by
  intro kv hkv
  unfold Dag.modifyBranch at hkv
  simp only [List.mem_map] at hkv
  obtain ⟨kv1, hkv1, hkv1e⟩ := hkv
  obtain ⟨kv0, hkv0m, hkv0e⟩ := hkv1
  have h1fst : kv1.1 = kv0.1 := by
    rw [← hkv0e]
    by_cases h : kv0.1 = c
    · rw [if_pos h]
    · rw [if_neg h]
  have hfst : kv.1 = kv1.1 := by
    rw [← hkv1e]
    by_cases h : kv1.1 = p
    · rw [if_pos h]
    · rw [if_neg h]
  constructor
  · intro hc
    have hc0 : kv0.1 = c := by rw [← h1fst, ← hfst]; exact hc
    have h1snd : kv1.2 = addParentTo p kv0.2 := by
      rw [← hkv0e]
      rw [show (if kv0.1 = c then (kv0.1, addParentTo p kv0.2) else kv0) =
        (kv0.1, addParentTo p kv0.2) from by rw [if_pos hc0]]
    have hp1 : p ∈ kv1.2.parents := by
      rw [h1snd]
      exact mem_parents_addParentTo p kv0.2
    by_cases hpp : kv1.1 = p
    · have h2 : kv.2 = addChildTo c kv1.2 := by
        rw [← hkv1e]
        rw [show (if kv1.1 = p then (kv1.1, addChildTo c kv1.2) else kv1) =
          (kv1.1, addChildTo c kv1.2) from by rw [if_pos hpp]]
      rw [h2, addChildTo_parents]
      exact hp1
    · have h2 : kv.2 = kv1.2 := by rw [← hkv1e, if_neg hpp]
      rw [h2]
      exact hp1
  · intro hp
    have hp1 : kv1.1 = p := by rw [← hfst]; exact hp
    have h2 : kv.2 = addChildTo c kv1.2 := by
      rw [← hkv1e]
      rw [show (if kv1.1 = p then (kv1.1, addChildTo c kv1.2) else kv1) =
        (kv1.1, addChildTo c kv1.2) from by rw [if_pos hp1]]
    rw [h2]
    exact mem_children_addChildTo c kv1.2

/-- Re-running the two conditional pushes is the identity. -/
theorem addCore_idem (g : Dag) (c p : Nat) :
    (((g.modifyBranch c (addParentTo p)).modifyBranch p
        (addChildTo c)).modifyBranch c (addParentTo p)).modifyBranch p (addChildTo c) =
      (g.modifyBranch c (addParentTo p)).modifyBranch p (addChildTo c) := by
  have h1 : ((g.modifyBranch c (addParentTo p)).modifyBranch p
      (addChildTo c)).modifyBranch c (addParentTo p) =
      (g.modifyBranch c (addParentTo p)).modifyBranch p (addChildTo c) := by
    apply modifyBranch_eq_self
    intro kv hkv hk
    have := (addCore_mem g c p kv hkv).1 hk
    unfold addParentTo
    rw [if_pos this]
  rw [h1]
  apply modifyBranch_eq_self
  intro kv hkv hk
  have := (addCore_mem g c p kv hkv).2 hk
  unfold addChildTo
  rw [if_pos this]

/-- `find?` by name through the keyed map of `modifyBranch`, when the
mutation keeps the name and uid fields: the same slot is found. -/
theorem find_map_preserve (l : List (Nat × Branch)) (i : Nat) (f : Branch → Branch)
    (hname : ∀ b, (f b).git_name = b.git_name) (huid : ∀ b, (f b).uid = b.uid)
    (name : String) :
    ∀ {kv}, l.find? (fun kv => kv.2.git_name == name) = some kv →
      ∃ kv', (l.map (fun kv => if kv.1 = i then (kv.1, f kv.2) else kv)).find?
          (fun kv => kv.2.git_name == name) = some kv' ∧
        kv'.2.uid = kv.2.uid ∧ kv'.2.git_name = kv.2.git_name := by
  intro kv hkv
  induction l with
  | nil => simp [List.find?] at hkv
  | cons hd rest ih =>
    have hdfields : ((if hd.1 = i then (hd.1, f hd.2) else hd)).2.git_name = hd.2.git_name ∧
        ((if hd.1 = i then (hd.1, f hd.2) else hd)).2.uid = hd.2.uid := by
      by_cases h : hd.1 = i
      · rw [if_pos h]
        exact ⟨hname hd.2, huid hd.2⟩
      · rw [if_neg h]
        exact ⟨rfl, rfl⟩
    by_cases hmatch : hd.2.git_name == name
    · simp only [List.find?_cons, hmatch] at hkv
      have hkveq : hd = kv := by injection hkv
      refine ⟨(if hd.1 = i then (hd.1, f hd.2) else hd), ?_, ?_, ?_⟩
      · simp only [List.map_cons, List.find?_cons, hdfields.1, hmatch]
      · rw [hdfields.2, hkveq]
      · rw [hdfields.1, hkveq]
    · have hfalse : (hd.2.git_name == name) = false := by
        cases hcase : (hd.2.git_name == name)
        · rfl
        · exact absurd hcase hmatch
      simp only [List.find?_cons, hfalse] at hkv
      obtain ⟨kv', h1, h2, h3⟩ := ih hkv
      refine ⟨kv', ?_, h2, h3⟩
      simp only [List.map_cons, List.find?_cons, hdfields.1, hfalse]
      exact h1

/-- `find_branch_by_name` through a `modifyBranch` whose function keeps
the name and uid fields: a branch with the same uid and name is found. -/
theorem find_branch_by_name_modify (g : Dag) (i : Nat) (f : Branch → Branch)
    (hname : ∀ b, (f b).git_name = b.git_name)
    (huid : ∀ b, (f b).uid = b.uid) (name : String) :
    ∀ {b}, g.find_branch_by_name name = some b →
      ∃ b', (g.modifyBranch i f).find_branch_by_name name = some b' ∧
        b'.uid = b.uid ∧ b'.git_name = b.git_name := by
  intro b hb
  unfold Dag.find_branch_by_name at hb
  obtain ⟨kv, hkv, hbe⟩ : ∃ kv, g.branches.find? (fun kv => kv.2.git_name == name) =
      some kv ∧ kv.2 = b := by
    cases hfind : g.branches.find? (fun kv => kv.2.git_name == name) with
    | none => rw [hfind] at hb; simp at hb
    | some kv0 =>
      rw [hfind] at hb
      exact ⟨kv0, rfl, by injection hb⟩
  obtain ⟨kv', h1, h2, h3⟩ := find_map_preserve g.branches i f hname huid name hkv
  refine ⟨kv'.2, ?_, by rw [h2, hbe], by rw [h3, hbe]⟩
  show Option.map Prod.snd ((g.modifyBranch i f).branches.find?
      (fun kv => kv.2.git_name == name)) = some kv'.2
  rw [show (g.modifyBranch i f).branches =
      g.branches.map (fun kv => if kv.1 = i then (kv.1, f kv.2) else kv) from rfl]
  rw [h1]
  rfl

theorem addParentTo_git_name (p : Nat) (b : Branch) :
    (addParentTo p b).git_name = b.git_name := by
  unfold addParentTo
  by_cases h : p ∈ b.parents
  · rw [if_pos h]
  · rw [if_neg h]

theorem addParentTo_uid (p : Nat) (b : Branch) : (addParentTo p b).uid = b.uid := by
  unfold addParentTo
  by_cases h : p ∈ b.parents
  · rw [if_pos h]
  · rw [if_neg h]

theorem addChildTo_git_name (c : Nat) (b : Branch) :
    (addChildTo c b).git_name = b.git_name := by
  unfold addChildTo
  by_cases h : c ∈ b.children
  · rw [if_pos h]
  · rw [if_neg h]

theorem addChildTo_uid (c : Nat) (b : Branch) : (addChildTo c b).uid = b.uid := by
  unfold addChildTo
  by_cases h : c ∈ b.children
  · rw [if_pos h]
  · rw [if_neg h]

theorem add_by_id_ok (g : Dag) (c p : Nat)
    (hc : g.containsBranch c = true) (hp : g.containsBranch p = true) :
    g.add_parent_child_relationship_by_id c p =
      .ok ((g.modifyBranch c (addParentTo p)).modifyBranch p (addChildTo c)) := by
  unfold Dag.add_parent_child_relationship_by_id
  rw [if_neg (not_not_intro hc), if_neg (not_not_intro hp)]

theorem add_by_id_ok_elim (g : Dag) (c p : Nat) (g1 : Dag)
    (h : g.add_parent_child_relationship_by_id c p = .ok g1) :
    g.containsBranch c = true ∧ g.containsBranch p = true ∧
      g1 = (g.modifyBranch c (addParentTo p)).modifyBranch p (addChildTo c) := by
  by_cases hc : g.containsBranch c = true
  · by_cases hp : g.containsBranch p = true
    · rw [add_by_id_ok g c p hc hp] at h
      exact ⟨hc, hp, by injection h with h; exact h.symm⟩
    · unfold Dag.add_parent_child_relationship_by_id at h
      rw [if_neg (not_not_intro hc), if_pos hp] at h
      exact Except.noConfusion h
  · unfold Dag.add_parent_child_relationship_by_id at h
    rw [if_pos hc] at h
    exact Except.noConfusion h

theorem add_by_name_ok (g : Dag) (cn pn : String) (cb pb : Branch)
    (hc : g.find_branch_by_name cn = some cb)
    (hp : g.find_branch_by_name pn = some pb) :
    g.add_parent_child_relationship cn pn =
      .ok ((g.modifyBranch cb.uid (addParentTo pb.uid)).modifyBranch pb.uid
        (addChildTo cb.uid)) := by
  unfold Dag.add_parent_child_relationship
  rw [hc, hp]

/-- C8 helper: the composite state of one add-edge, used below. -/
def addEdgeCore (g : Dag) (c p : Nat) : Dag :=
  (g.modifyBranch c (addParentTo p)).modifyBranch p (addChildTo c)

/-- Claim C8 — adding an edge is idempotent, both by id and by name:
a second application of the same add on the result of a successful first
application succeeds and returns the unchanged graph. -/
theorem claim_C8_add_edge_idempotent (g : Dag) (c p : Nat) (cn pn : String) (g1 g2 : Dag)
    (hid : g.add_parent_child_relationship_by_id c p = .ok g1)
    (hname : g.add_parent_child_relationship cn pn = .ok g2) :
    g1.add_parent_child_relationship_by_id c p = .ok g1 ∧
      g2.add_parent_child_relationship cn pn = .ok g2 := by
  constructor
  · obtain ⟨hc, hp, rfl⟩ := add_by_id_ok_elim g c p g1 hid
    rw [add_by_id_ok _ c p
      (by rw [containsBranch_modifyBranch, containsBranch_modifyBranch]; exact hc)
      (by rw [containsBranch_modifyBranch, containsBranch_modifyBranch]; exact hp)]
    rw [addCore_idem]
  · unfold Dag.add_parent_child_relationship at hname
    cases hfc : g.find_branch_by_name cn with
    | none => rw [hfc] at hname; exact Except.noConfusion hname
    | some cb =>
      cases hfp : g.find_branch_by_name pn with
      | none => rw [hfc, hfp] at hname; exact Except.noConfusion hname
      | some pb =>
        rw [hfc, hfp] at hname
        have hg2 : g2 = (g.modifyBranch cb.uid (addParentTo pb.uid)).modifyBranch pb.uid
            (addChildTo cb.uid) := by
          injection hname with hname
          exact hname.symm
        subst hg2
        obtain ⟨cb1, hfc1, hcu1, _⟩ := find_branch_by_name_modify g cb.uid
          (addParentTo pb.uid) (addParentTo_git_name pb.uid) (addParentTo_uid pb.uid) cn hfc
        obtain ⟨cb2, hfc2, hcu2, _⟩ := find_branch_by_name_modify
          (g.modifyBranch cb.uid (addParentTo pb.uid)) pb.uid
          (addChildTo cb.uid) (addChildTo_git_name cb.uid) (addChildTo_uid cb.uid) cn hfc1
        obtain ⟨pb1, hfp1, hpu1, _⟩ := find_branch_by_name_modify g cb.uid
          (addParentTo pb.uid) (addParentTo_git_name pb.uid) (addParentTo_uid pb.uid) pn hfp
        obtain ⟨pb2, hfp2, hpu2, _⟩ := find_branch_by_name_modify
          (g.modifyBranch cb.uid (addParentTo pb.uid)) pb.uid
          (addChildTo cb.uid) (addChildTo_git_name cb.uid) (addChildTo_uid cb.uid) pn hfp1
        rw [add_by_name_ok _ cn pn cb2 pb2 hfc2 hfp2]
        rw [hcu2, hcu1, hpu2, hpu1]
        rw [addCore_idem]

/-- C8 witness: concrete two-branch graph, the edge add by id and by name
both idempotent. -/
def dagC8 : Dag :=
  ((Dag.new.create_branch "main").1.create_branch "feature").1

theorem claim_C8_witness :
    (dagC8.add_parent_child_relationship_by_id 2 1 = .ok (addEdgeCore dagC8 2 1) ∧
      dagC8.add_parent_child_relationship "feature" "main" = .ok (addEdgeCore dagC8 2 1)) ∧
    ((addEdgeCore dagC8 2 1).add_parent_child_relationship_by_id 2 1 =
        .ok (addEdgeCore dagC8 2 1) ∧
      (addEdgeCore dagC8 2 1).add_parent_child_relationship "feature" "main" =
        .ok (addEdgeCore dagC8 2 1)) :=
  ⟨⟨by rfl, by rfl⟩,
    claim_C8_add_edge_idempotent dagC8 2 1 "feature" "main"
      (addEdgeCore dagC8 2 1) (addEdgeCore dagC8 2 1) (by rfl) (by rfl)⟩

/-- Claim C5 — PR creation with zero parents produces no PR and is not an
error (graph unchanged); with an existing `pr_number` the outer call is a
no-op creating nothing, and the underlying `create_pr_if_needed` returns
exactly the existing number with the branch unchanged. -/
theorem claim_C5_create_pr (o : GitOracle) (g : Dag) (id : Nat) (br : Branch)
    (h : g.getBranch id = some br) :
    (br.parents = [] → create_pr_for_branch o id g = some (.ok none, g)) ∧
    (br.pr_number.isSome = true → create_pr_for_branch o id g = some (.ok none, g)) ∧
    (∀ n target, br.pr_number = some n →
      create_pr_if_needed o br target = (br, .ok n)) := by
  refine ⟨?_, ?_, ?_⟩
  · intro hpar
    simp only [create_pr_for_branch, h]
    by_cases hpn : br.pr_number.isSome
    · rw [if_pos hpn]
    · rw [if_neg hpn, hpar]
      rw [if_neg (by decide : ¬ ([] : List Nat).length > 1)]
      rfl
  · intro hpn
    simp only [create_pr_for_branch, h]
    rw [if_pos hpn]
  · intro n target hpn
    unfold create_pr_if_needed
    rw [hpn]

/-- C5 witness: a parentless branch and a branch with PR number 42. -/
def dagC5 : Dag :=
  (((Dag.new.create_branch "root").1.create_branch "feature").1.modifyBranch 2
    (fun b => { b with pr_number := some 42 }))

def oracleC5 : GitOracle :=
  { originCheck := fun _ => .ok false
    rebaseOutcome := fun _ _ => .success
    isAncestor := fun _ _ => .ok false
    commitDistance := fun _ _ => .ok 1
    prCreate := fun _ _ => .ok 7
    prEdit := fun _ _ => .ok ()
    fetchResult := .ok () }

theorem claim_C5_witness :
    (dagC5.getBranch 1 = some (Branch.with_id 1 "root") ∧
      (Branch.with_id 1 "root").parents = [] ∧
      create_pr_for_branch oracleC5 1 dagC5 = some (.ok none, dagC5)) ∧
    (∃ b2, dagC5.getBranch 2 = some b2 ∧ b2.pr_number = some 42 ∧
      create_pr_for_branch oracleC5 2 dagC5 = some (.ok none, dagC5) ∧
      create_pr_if_needed oracleC5 b2 "root" = (b2, .ok 42)) := by
  constructor
  · exact ⟨by rfl, rfl,
      (claim_C5_create_pr oracleC5 dagC5 1 (Branch.with_id 1 "root") (by rfl)).1 rfl⟩
  · refine ⟨{ Branch.with_id 2 "feature" with pr_number := some 42 }, by rfl, rfl, ?_, ?_⟩
    · exact (claim_C5_create_pr oracleC5 dagC5 2
        { Branch.with_id 2 "feature" with pr_number := some 42 } (by rfl)).2.1 (by rfl)
    · exact (claim_C5_create_pr oracleC5 dagC5 2
        { Branch.with_id 2 "feature" with pr_number := some 42 } (by rfl)).2.2 42 "root" rfl

/-- Invariant of claim C9: the allocation counter strictly exceeds the
uid of every branch currently stored. -/
def counterInv (g : Dag) : Prop :=
  ∀ kv ∈ g.branches, kv.2.uid + 1 ≤ g.next_branch_id

instance counterInv.dec (g : Dag) : Decidable (counterInv g) := by
  unfold counterInv
  infer_instance

theorem mem_ainsert {α : Type} (k : Nat) (v : α) (l : List (Nat × α)) :
    ∀ kv ∈ ainsert k v l, kv = (k, v) ∨ kv ∈ l := by
  induction l with
  | nil =>
    intro kv hkv
    simp [ainsert] at hkv
    exact Or.inl hkv
  | cons hd rest ih =>
    intro kv hkv
    unfold ainsert at hkv
    by_cases hk : hd.1 = k
    · rw [show (hd.1, hd.2) = hd from rfl, if_pos hk] at hkv
      rcases List.mem_cons.mp hkv with h | h
      · exact Or.inl h
      · exact Or.inr (List.mem_cons_of_mem _ h)
    · rw [show (hd.1, hd.2) = hd from rfl, if_neg hk] at hkv
      rcases List.mem_cons.mp hkv with h | h
      · exact Or.inr (h ▸ List.mem_cons_self _ _)
      · rcases ih kv h with h2 | h2
        · exact Or.inl h2
        · exact Or.inr (List.mem_cons_of_mem _ h2)

/-- Claim C9 — the allocation counter stays strictly above every stored
uid through `create_branch` and `insert_branch`, freshly created ids are
never ids of existing branches, the persistence round-trip is the
identity, and the concrete create-3/persist/reload/create scenario
allocates id 4. -/
theorem claim_C9_id_counter (g : Dag) (name : String) (b : Branch)
    (hinv : counterInv g) :
    counterInv (g.create_branch name).1 ∧
    (g.create_branch name).2 = g.next_branch_id ∧
    (g.create_branch name).1.next_branch_id = g.next_branch_id + 1 ∧
    (∀ kv ∈ g.branches, kv.2.uid ≠ (g.create_branch name).2) ∧
    counterInv (g.insert_branch b) ∧
    g.next_branch_id ≤ (g.insert_branch b).next_branch_id ∧
    b.uid + 1 ≤ (g.insert_branch b).next_branch_id ∧
    read_dag_from_file (write_dag_to_file g) = g ∧
    ((read_dag_from_file (write_dag_to_file (((Dag.new.create_branch "main").1.create_branch "feature").1.create_branch "bugfix").1)).create_branch "fourth").2 = 4 := by
  refine ⟨?_, rfl, rfl, ?_, ?_, ?_, ?_, rfl, rfl⟩
  · intro kv hkv
    rcases mem_ainsert g.next_branch_id (Branch.with_id g.next_branch_id name)
      g.branches kv hkv with h | h
    · rw [h]
      exact Nat.le_refl _
    · exact Nat.le_trans (hinv kv h) (Nat.le_succ _)
  · intro kv hkv
    have := hinv kv hkv
    intro hc
    rw [hc] at this
    exact Nat.not_succ_le_self _ this
  · intro kv hkv
    rcases mem_ainsert b.uid b g.branches kv hkv with h | h
    · rw [h]
      exact Nat.le_max_right _ _
    · exact Nat.le_trans (hinv kv h) (Nat.le_max_left _ _)
  · exact Nat.le_max_left _ _
  · exact Nat.le_max_right _ _

/-- C9 witness: the invariant holds for the two-branch example graph and
the theorem instantiates there. -/
theorem claim_C9_witness :
    counterInv dagC8 ∧
      (counterInv (dagC8.create_branch "x").1 ∧
        (dagC8.create_branch "x").2 = dagC8.next_branch_id ∧
        (dagC8.create_branch "x").1.next_branch_id = dagC8.next_branch_id + 1 ∧
        (∀ kv ∈ dagC8.branches, kv.2.uid ≠ (dagC8.create_branch "x").2) ∧
        counterInv (dagC8.insert_branch (Branch.with_id 100 "ext")) ∧
        dagC8.next_branch_id ≤ (dagC8.insert_branch (Branch.with_id 100 "ext")).next_branch_id ∧
        (Branch.with_id 100 "ext").uid + 1 ≤
          (dagC8.insert_branch (Branch.with_id 100 "ext")).next_branch_id ∧
        read_dag_from_file (write_dag_to_file dagC8) = dagC8 ∧
        ((read_dag_from_file (write_dag_to_file (((Dag.new.create_branch "main").1.create_branch "feature").1.create_branch "bugfix").1)).create_branch "fourth").2 = 4) :=
  ⟨by decide, claim_C9_id_counter dagC8 "x" (Branch.with_id 100 "ext") (by decide)⟩

/-! ## Claim C6: closest-parent detection -/

/-- A candidate the closest-parent scan can actually select: distinct
from the target, an ancestor of it, at a commit distance `d` with
`0 < d < u32::MAX` (the `u32::MAX` sentinel initialization of
`min_distance` makes distance exactly `u32::MAX` unselectable). -/
def QualLt (o : GitOracle) (t c : String) : Prop :=
  c ≠ t ∧ o.isAncestor c t = .ok true ∧
    ∃ d, o.commitDistance c t = .ok d ∧ 0 < d ∧ d < u32MAX

theorem fcpLoop_cons (o : GitOracle) (t c : String) (cs : List String)
    (closest : Option String) (minD : Nat) :
    fcpLoop o t (c :: cs) closest minD =
      if c = t then fcpLoop o t cs closest minD
      else
        match o.isAncestor c t with
        | .error e => .error e
        | .ok false => fcpLoop o t cs closest minD
        | .ok true =>
          match o.commitDistance c t with
          | .error e => .error e
          | .ok d =>
            if 0 < d ∧ d < minD then fcpLoop o t cs (some c) d
            else fcpLoop o t cs closest minD := rfl

theorem fcpLoop_spec (o : GitOracle) (t : String) :
    ∀ (cs : List String) (closest : Option String) (minD : Nat),
    (∀ c ∈ cs, c ≠ t → ∃ b, o.isAncestor c t = .ok b) →
    (∀ c ∈ cs, c ≠ t → o.isAncestor c t = .ok true →
      ∃ d, o.commitDistance c t = .ok d) →
    minD ≤ u32MAX →
    (match closest with
     | none => minD = u32MAX
     | some c0 => c0 ≠ t ∧ o.isAncestor c0 t = .ok true ∧
         o.commitDistance c0 t = .ok minD ∧ 0 < minD ∧ minD < u32MAX) →
    ∃ r, fcpLoop o t cs closest minD = .ok r ∧
      ((r = closest ∧
          ∀ c ∈ cs, QualLt o t c → ∀ d, o.commitDistance c t = .ok d → minD ≤ d) ∨
       (∃ c, r = some c ∧ c ∈ cs ∧ QualLt o t c ∧
          ∃ d, o.commitDistance c t = .ok d ∧ d < minD ∧
            ∀ c2 ∈ cs, QualLt o t c2 → ∀ d2, o.commitDistance c2 t = .ok d2 → d ≤ d2)) := by
  intro cs
  induction cs with
  | nil =>
    intro closest minD _ _ _ _
    exact ⟨closest, rfl, Or.inl ⟨rfl, by intro c hc; simp at hc⟩⟩
  | cons c rest ih =>
    intro closest minD Hok1 Hok2 HminD Hacc
    have Hok1r : ∀ c2 ∈ rest, c2 ≠ t → ∃ b, o.isAncestor c2 t = .ok b :=
      fun c2 hc2 => Hok1 c2 (List.mem_cons_of_mem _ hc2)
    have Hok2r : ∀ c2 ∈ rest, c2 ≠ t → o.isAncestor c2 t = .ok true →
        ∃ d, o.commitDistance c2 t = .ok d :=
      fun c2 hc2 => Hok2 c2 (List.mem_cons_of_mem _ hc2)
    by_cases hct : c = t
    · rw [fcpLoop_cons, if_pos hct]
      obtain ⟨r, hr, hcase⟩ := ih closest minD Hok1r Hok2r HminD Hacc
      refine ⟨r, hr, ?_⟩
      rcases hcase with ⟨he, hbound⟩ | ⟨c1, he, hmem, hq, d1, hd1, hlt, hmin⟩
      · refine Or.inl ⟨he, ?_⟩
        intro c2 hc2 hq2 d2 hd2
        rcases List.mem_cons.mp hc2 with rfl | hc2
        · exact absurd hct hq2.1
        · exact hbound c2 hc2 hq2 d2 hd2
      · refine Or.inr ⟨c1, he, List.mem_cons_of_mem _ hmem, hq, d1, hd1, hlt, ?_⟩
        intro c2 hc2 hq2 d2 hd2
        rcases List.mem_cons.mp hc2 with rfl | hc2
        · exact absurd hct hq2.1
        · exact hmin c2 hc2 hq2 d2 hd2
    · obtain ⟨b, hb⟩ := Hok1 c (List.mem_cons_self _ _) hct
      cases b with
      | false =>
        simp only [fcpLoop_cons, if_neg hct, hb]
        obtain ⟨r, hr, hcase⟩ := ih closest minD Hok1r Hok2r HminD Hacc
        refine ⟨r, hr, ?_⟩
        have hnq : ¬ QualLt o t c := by
          intro hq
          rw [hq.2.1] at hb
          exact Bool.noConfusion (by injection hb)
        rcases hcase with ⟨he, hbound⟩ | ⟨c1, he, hmem, hq, d1, hd1, hlt, hmin⟩
        · refine Or.inl ⟨he, ?_⟩
          intro c2 hc2 hq2 d2 hd2
          rcases List.mem_cons.mp hc2 with rfl | hc2
          · exact absurd hq2 hnq
          · exact hbound c2 hc2 hq2 d2 hd2
        · refine Or.inr ⟨c1, he, List.mem_cons_of_mem _ hmem, hq, d1, hd1, hlt, ?_⟩
          intro c2 hc2 hq2 d2 hd2
          rcases List.mem_cons.mp hc2 with rfl | hc2
          · exact absurd hq2 hnq
          · exact hmin c2 hc2 hq2 d2 hd2
      | true =>
        obtain ⟨d, hd⟩ := Hok2 c (List.mem_cons_self _ _) hct hb
        by_cases hcond : 0 < d ∧ d < minD
        · simp only [fcpLoop_cons, if_neg hct, hb, hd, if_pos hcond]
          have hdmax : d < u32MAX := Nat.lt_of_lt_of_le hcond.2 HminD
          have hq : QualLt o t c := ⟨hct, hb, d, hd, hcond.1, hdmax⟩
          obtain ⟨r, hr, hcase⟩ := ih (some c) d Hok1r Hok2r (Nat.le_of_lt hdmax)
            ⟨hct, hb, hd, hcond.1, hdmax⟩
          refine ⟨r, hr, ?_⟩
          rcases hcase with ⟨he, hbound⟩ | ⟨c1, he, hmem, hq1, d1, hd1, hlt, hmin⟩
          · refine Or.inr ⟨c, he, List.mem_cons_self _ _, hq, d, hd, hcond.2, ?_⟩
            intro c2 hc2 hq2 d2 hd2
            rcases List.mem_cons.mp hc2 with rfl | hc2
            · have : d = d2 := by rw [hd] at hd2; injection hd2
              exact Nat.le_of_eq this
            · exact hbound c2 hc2 hq2 d2 hd2
          · refine Or.inr ⟨c1, he, List.mem_cons_of_mem _ hmem, hq1, d1, hd1,
              Nat.lt_trans hlt hcond.2, ?_⟩
            intro c2 hc2 hq2 d2 hd2
            rcases List.mem_cons.mp hc2 with rfl | hc2
            · have : d = d2 := by rw [hd] at hd2; injection hd2
              exact Nat.le_of_lt (this ▸ hlt)
            · exact hmin c2 hc2 hq2 d2 hd2
        · simp only [fcpLoop_cons, if_neg hct, hb, hd, if_neg hcond]
          obtain ⟨r, hr, hcase⟩ := ih closest minD Hok1r Hok2r HminD Hacc
          refine ⟨r, hr, ?_⟩
          have hheadbound : ∀ d2, o.commitDistance c t = .ok d2 → QualLt o t c →
              minD ≤ d2 := by
            intro d2 hd2 hq2
            have hdd : d = d2 := by rw [hd] at hd2; injection hd2
            subst hdd
            obtain ⟨d3, hd3, hpos, _⟩ := hq2.2.2
            have : d3 = d := by rw [hd] at hd3; injection hd3; omega
            subst this
            by_contra hlt2
            exact hcond ⟨hpos, Nat.lt_of_not_le (fun hle => hlt2 hle)⟩
          rcases hcase with ⟨he, hbound⟩ | ⟨c1, he, hmem, hq1, d1, hd1, hlt, hmin⟩
          · refine Or.inl ⟨he, ?_⟩
            intro c2 hc2 hq2 d2 hd2
            rcases List.mem_cons.mp hc2 with rfl | hc2
            · exact hheadbound d2 hd2 hq2
            · exact hbound c2 hc2 hq2 d2 hd2
          · refine Or.inr ⟨c1, he, List.mem_cons_of_mem _ hmem, hq1, d1, hd1, hlt, ?_⟩
            intro c2 hc2 hq2 d2 hd2
            rcases List.mem_cons.mp hc2 with rfl | hc2
            · exact Nat.le_trans (Nat.le_of_lt hlt) (hheadbound d2 hd2 hq2)
            · exact hmin c2 hc2 hq2 d2 hd2

/-- Claim C6 (amended) — when every consulted oracle call succeeds,
`find_closest_parent` returns `Ok`: `none` exactly when no candidate
qualifies (distance `u32::MAX` included in the disqualified), otherwise
a qualifying candidate of minimum commit distance. -/
theorem claim_C6_find_closest_parent (o : GitOracle) (t : String) (cs : List String)
    (Hok1 : ∀ c ∈ cs, c ≠ t → ∃ b, o.isAncestor c t = .ok b)
    (Hok2 : ∀ c ∈ cs, c ≠ t → o.isAncestor c t = .ok true →
      ∃ d, o.commitDistance c t = .ok d) :
    ∃ r, find_closest_parent o t cs = .ok r ∧
      ((r = none ∧ ∀ c ∈ cs, ¬ QualLt o t c) ∨
       (∃ c, r = some c ∧ c ∈ cs ∧ QualLt o t c ∧
          ∀ c2 ∈ cs, QualLt o t c2 → ∀ d d2, o.commitDistance c t = .ok d →
            o.commitDistance c2 t = .ok d2 → d ≤ d2)) := by
  obtain ⟨r, hr, hcase⟩ := fcpLoop_spec o t cs none u32MAX Hok1 Hok2 (Nat.le_refl _) rfl
  refine ⟨r, hr, ?_⟩
  rcases hcase with ⟨he, hbound⟩ | ⟨c, he, hmem, hq, d, hd, _, hmin⟩
  · refine Or.inl ⟨he, ?_⟩
    intro c hc hq
    obtain ⟨d, hd, _, hdmax⟩ := hq.2.2
    exact absurd (hbound c hc hq d hd) (Nat.not_le_of_lt hdmax)
  · refine Or.inr ⟨c, he, hmem, hq, ?_⟩
    intro c2 hc2 hq2 d0 d2 hd0 hd2
    have : d = d0 := by rw [hd] at hd0; injection hd0
    exact this ▸ hmin c2 hc2 hq2 d2 hd2

/-- C6 counterexample oracle: one candidate, a genuine ancestor at the
(representable) commit distance `u32::MAX`. -/
def oracleC6 : GitOracle :=
  { originCheck := fun _ => .ok false
    rebaseOutcome := fun _ _ => .success
    isAncestor := fun _ _ => .ok true
    commitDistance := fun _ _ => .ok u32MAX
    prCreate := fun _ _ => .error "unavailable"
    prEdit := fun _ _ => .ok ()
    fetchResult := .ok () }

/-- C6 counterexample — the claim as stated fails: candidate `a` is an
ancestor of the target at non-zero distance (so the claimed minimum
non-zero-distance candidate exists and is `a`), yet the function returns
`Ok(None)`: distance `u32::MAX` never beats the `u32::MAX` sentinel. -/
theorem claim_C6_counterexample :
    oracleC6.isAncestor "a" "t" = .ok true ∧
    oracleC6.commitDistance "a" "t" = .ok 4294967295 ∧
    0 < 4294967295 ∧
    find_closest_parent oracleC6 "t" ["a"] = .ok none ∧
    find_closest_parent oracleC6 "t" ["a"] ≠ .ok (some "a") := by
  refine ⟨rfl, rfl, by decide, by rfl, ?_⟩
  intro h
  rw [show find_closest_parent oracleC6 "t" ["a"] = .ok none from by rfl] at h
  injection h with h
  exact Option.noConfusion h

/-- C6 witness oracle: the chain A → B (1 commit) → C (1 more commit). -/
def oracleChain : GitOracle :=
  { originCheck := fun _ => .ok false
    rebaseOutcome := fun _ _ => .success
    isAncestor := fun a b =>
      if a = "A" ∧ b = "C" then .ok true
      else if a = "B" ∧ b = "C" then .ok true
      else .ok false
    commitDistance := fun a b =>
      if a = "A" ∧ b = "C" then .ok 2
      else if a = "B" ∧ b = "C" then .ok 1
      else .ok 0
    prCreate := fun _ _ => .error "unavailable"
    prEdit := fun _ _ => .ok ()
    fetchResult := .ok () }

theorem claim_C6_witness :
    find_closest_parent oracleChain "C" ["A", "B"] = .ok (some "B") ∧
    (∃ r, find_closest_parent oracleChain "C" ["A", "B"] = .ok r ∧
      ((r = none ∧ ∀ c ∈ ["A", "B"], ¬ QualLt oracleChain "C" c) ∨
       (∃ c, r = some c ∧ c ∈ ["A", "B"] ∧ QualLt oracleChain "C" c ∧
          ∀ c2 ∈ ["A", "B"], QualLt oracleChain "C" c2 →
            ∀ d d2, oracleChain.commitDistance c "C" = .ok d →
              oracleChain.commitDistance c2 "C" = .ok d2 → d ≤ d2))) :=
  ⟨by rfl,
    claim_C6_find_closest_parent oracleChain "C" ["A", "B"]
      (by
        intro c hc _
        rcases List.mem_cons.mp hc with rfl | hc
        · exact ⟨true, rfl⟩
        · rcases List.mem_cons.mp hc with rfl | hc
          · exact ⟨true, rfl⟩
          · simp at hc)
      (by
        intro c hc _ _
        rcases List.mem_cons.mp hc with rfl | hc
        · exact ⟨2, rfl⟩
        · rcases List.mem_cons.mp hc with rfl | hc
          · exact ⟨1, rfl⟩
          · simp at hc)⟩

/-! ## Claims C1, C2, C4: the update sweep -/

theorem containsBranch_foldl_modify (f : Branch → Branch) :
    ∀ (ps : List Nat) (g : Dag) (k : Nat),
      (ps.foldl (fun acc p => acc.modifyBranch p f) g).containsBranch k =
        g.containsBranch k := by
  intro ps
  induction ps with
  | nil => intro g k; rfl
  | cons p rest ih =>
    intro g k
    rw [List.foldl_cons, ih, containsBranch_modifyBranch]

theorem childLoop_cons_some (o : GitOracle) (branch_id parent_id : Nat)
    (parent_name : String) (child : Nat) (cs : List Nat) (g : Dag)
    (evs : List GitEvent) (cb : Branch) (gadd : Dag)
    (hchild : g.getBranch child = some cb)
    (hadd : (g.modifyBranch child (dropParent branch_id)).add_parent_child_relationship_by_id
      parent_id child = .ok gadd) :
    childLoop o branch_id parent_id parent_name (child :: cs) g evs =
      childLoop o branch_id parent_id parent_name cs gadd
        (evs ++ (update_pr_target_for_branch o child gadd parent_name).2) := by
  conv_lhs => unfold childLoop
  simp only [hchild, hadd]

theorem childLoop_some (o : GitOracle) (branch_id parent_id : Nat) (parent_name : String) :
    ∀ (cs : List Nat) (g : Dag) (evs : List GitEvent),
      g.containsBranch parent_id = true →
      ∃ g2 evs2, childLoop o branch_id parent_id parent_name cs g evs =
        some (g2, evs ++ evs2) ∧ g2.containsBranch parent_id = true := by
  intro cs
  induction cs with
  | nil =>
    intro g evs hpar
    exact ⟨g, [], by rw [List.append_nil]; rfl, hpar⟩
  | cons child rest ih =>
    intro g evs hpar
    cases hchild : g.getBranch child with
    | none =>
      obtain ⟨g2, evs2, hloop, hc⟩ := ih g evs hpar
      refine ⟨g2, evs2, ?_, hc⟩
      unfold childLoop
      simp only [hchild]
      exact hloop
    | some cb =>
      have hc1 : (g.modifyBranch child (dropParent branch_id)).containsBranch parent_id = true := by
        rw [containsBranch_modifyBranch]
        exact hpar
      have hcc1 : (g.modifyBranch child (dropParent branch_id)).containsBranch child = true := by
        rw [containsBranch_modifyBranch]
        unfold Dag.containsBranch
        rw [hchild]
        rfl
      have hadd := add_by_id_ok (g.modifyBranch child (dropParent branch_id))
        parent_id child hc1 hcc1
      have hc2 : (((g.modifyBranch child (dropParent branch_id)).modifyBranch parent_id
          (addParentTo child)).modifyBranch child (addChildTo parent_id)).containsBranch
          parent_id = true := by
        rw [containsBranch_modifyBranch, containsBranch_modifyBranch]
        exact hc1
      obtain ⟨g2, evs2, hloop, hc⟩ := ih
        (((g.modifyBranch child (dropParent branch_id)).modifyBranch parent_id
          (addParentTo child)).modifyBranch child (addChildTo parent_id))
        (evs ++ (update_pr_target_for_branch o child
          (((g.modifyBranch child (dropParent branch_id)).modifyBranch parent_id
            (addParentTo child)).modifyBranch child (addChildTo parent_id)) parent_name).2)
        hc2
      refine ⟨g2, (update_pr_target_for_branch o child
        (((g.modifyBranch child (dropParent branch_id)).modifyBranch parent_id
          (addParentTo child)).modifyBranch child (addChildTo parent_id)) parent_name).2 ++
          evs2, ?_, hc⟩
      rw [childLoop_cons_some o branch_id parent_id parent_name child rest g evs cb _
        hchild hadd]
      rw [hloop, List.append_assoc]

theorem pruneLoop_some (o : GitOracle) (g : Dag) (branch_id : Nat) (branch_name : String)
    (branch_parents : List Nat) :
    ∀ (rem : List Nat) (evs : List GitEvent), (∀ p ∈ rem, p ≠ branch_id) →
      ∃ g2 pruned evs2,
        pruneLoop o g branch_id branch_name branch_parents rem evs =
          some (g2, pruned, evs ++ evs2) := by
  intro rem
  induction rem with
  | nil =>
    intro evs _
    exact ⟨g, false, [], by rw [List.append_nil]; rfl⟩
  | cons parent_id rest ih =>
    intro evs hne
    cases hpar : g.getBranch parent_id with
    | none =>
      obtain ⟨g2, pruned, evs2, hloop⟩ := ih evs (fun p hp => hne p (List.mem_cons_of_mem _ hp))
      refine ⟨g2, pruned, evs2, ?_⟩
      unfold pruneLoop
      simp only [hpar]
      exact hloop
    | some parent_branch =>
      by_cases hanc : (match o.isAncestor parent_branch.git_name branch_name with
        | .ok result => result
        | .error _ => false) = true
      · have hcont : ((branch_parents.foldl (fun acc p =>
            acc.modifyBranch p (dropChild branch_id)) (g.removeBranch branch_id))).containsBranch
            parent_id = true := by
          rw [containsBranch_foldl_modify]
          unfold Dag.containsBranch
          rw [getBranch_removeBranch,
            if_neg (hne parent_id (List.mem_cons_self _ _)), hpar]
          rfl
        obtain ⟨g3, evs3, hchildloop, _⟩ := childLoop_some o branch_id parent_id
          parent_branch.git_name
          (match g.getBranch branch_id with
           | some b => b.children
           | none => [])
          (branch_parents.foldl (fun acc p =>
            acc.modifyBranch p (dropChild branch_id)) (g.removeBranch branch_id))
          (evs ++ [.ancestorCheck parent_branch.git_name branch_name]) hcont
        refine ⟨g3, true, [.ancestorCheck parent_branch.git_name branch_name] ++ evs3, ?_⟩
        unfold pruneLoop
        simp only [hpar, hanc, if_pos]
        rw [hchildloop, List.append_assoc]
      · obtain ⟨g2, pruned, evs2, hloop⟩ := ih
          (evs ++ [.ancestorCheck parent_branch.git_name branch_name])
          (fun p hp => hne p (List.mem_cons_of_mem _ hp))
        refine ⟨g2, pruned, [.ancestorCheck parent_branch.git_name branch_name] ++ evs2, ?_⟩
        unfold pruneLoop
        simp only [hpar]
        rw [if_neg (by simpa using hanc)]
        rw [hloop, List.append_assoc]

theorem update_branch_skip (o : GitOracle) (g : Dag) (id : Nat)
    (failed skipped : List Nat) (br : Branch)
    (h : g.getBranch id = some br)
    (hany : (br.parents.any fun p => decide (p ∈ failed)) = true) :
    update_branch o g id failed skipped = some (g, failed, insertSet skipped id, []) := by
  simp only [update_branch, h, hany]
  rfl

theorem update_branch_origin_failed (o : GitOracle) (g : Dag) (id : Nat)
    (failed skipped : List Nat) (br b1 : Branch) (e : String) (ev1 : List GitEvent)
    (h : g.getBranch id = some br)
    (hany : (br.parents.any fun p => decide (p ∈ failed)) = false)
    (hstep : rebase_against_origin o br = (b1, some (.other e), ev1)) :
    update_branch o g id failed skipped =
      some (g.modifyBranch id (fun _ => b1), insertSet failed id, skipped, ev1) := by
  simp only [update_branch, h, hany, hstep]
  rfl

theorem update_branch_no_parents (o : GitOracle) (g : Dag) (id : Nat)
    (failed skipped : List Nat) (br b1 : Branch) (oerr : Option RebaseOriginError)
    (ev1 : List GitEvent)
    (h : g.getBranch id = some br)
    (hany : (br.parents.any fun p => decide (p ∈ failed)) = false)
    (hstep : rebase_against_origin o br = (b1, oerr, ev1))
    (hno : oerr = none ∨ oerr = some .originDoesntExist)
    (hpar : br.parents = []) :
    update_branch o g id failed skipped =
      some (g.modifyBranch id (fun _ => b1), failed, skipped, ev1) := by
  rcases hno with h0 | h0 <;> subst h0 <;>
    simp only [update_branch, h, hany, hstep, hpar] <;> rfl

theorem update_branch_parent_missing (o : GitOracle) (g : Dag) (id p : Nat)
    (failed skipped : List Nat) (br b1 : Branch) (oerr : Option RebaseOriginError)
    (ev1 : List GitEvent)
    (h : g.getBranch id = some br)
    (hany : (br.parents.any fun p => decide (p ∈ failed)) = false)
    (hanyp : (([p] : List Nat).any fun q => decide (q ∈ failed)) = false)
    (hstep : rebase_against_origin o br = (b1, oerr, ev1))
    (hno : oerr = none ∨ oerr = some .originDoesntExist)
    (hpar : br.parents = [p]) (hpid : p ≠ id)
    (hpm : g.getBranch p = none) :
    update_branch o g id failed skipped =
      some (g.modifyBranch id (fun _ => b1), failed, skipped, ev1) := by
  have hp1 : (g.modifyBranch id (fun _ => b1)).getBranch p = none := by
    rw [getBranch_modifyBranch, if_neg hpid, hpm]
  rcases hno with h0 | h0 <;> subst h0 <;>
    simp only [update_branch, h, hany, hanyp, hstep, hpar, hp1] <;> rfl

theorem update_branch_parent_rebase_failed (o : GitOracle) (g : Dag) (id p : Nat)
    (failed skipped : List Nat) (br b1 b2 pb : Branch) (oerr : Option RebaseOriginError)
    (ev1 : List GitEvent) (e2 : String)
    (h : g.getBranch id = some br)
    (hany : (br.parents.any fun p => decide (p ∈ failed)) = false)
    (hanyp : (([p] : List Nat).any fun q => decide (q ∈ failed)) = false)
    (hstep : rebase_against_origin o br = (b1, oerr, ev1))
    (hno : oerr = none ∨ oerr = some .originDoesntExist)
    (hpar : br.parents = [p]) (hpid : p ≠ id)
    (hpb : g.getBranch p = some pb)
    (hreb : rebase_branch o b1 pb.git_name = (b2, .error e2)) :
    update_branch o g id failed skipped =
      some ((g.modifyBranch id (fun _ => b1)).modifyBranch id (fun _ => b2),
        insertSet failed id, skipped,
        ev1 ++ [.rebaseAttempt b1.git_name pb.git_name]) := by
  have hp1 : (g.modifyBranch id (fun _ => b1)).getBranch p = some pb := by
    rw [getBranch_modifyBranch, if_neg hpid, hpb]
  have hid1 : (g.modifyBranch id (fun _ => b1)).getBranch id = some b1 := by
    rw [getBranch_modifyBranch, if_pos rfl, h]
    rfl
  rcases hno with h0 | h0 <;> subst h0 <;>
    simp only [update_branch, h, hany, hanyp, hstep, hpar, hp1, hid1, hreb] <;> rfl

theorem update_branch_parent_rebase_ok (o : GitOracle) (g : Dag) (id p : Nat)
    (failed skipped : List Nat) (br b1 b2 pb : Branch) (oerr : Option RebaseOriginError)
    (ev1 : List GitEvent) (g3 : Dag) (pruned : Bool) (evs3 : List GitEvent)
    (h : g.getBranch id = some br)
    (hany : (br.parents.any fun p => decide (p ∈ failed)) = false)
    (hanyp : (([p] : List Nat).any fun q => decide (q ∈ failed)) = false)
    (hstep : rebase_against_origin o br = (b1, oerr, ev1))
    (hno : oerr = none ∨ oerr = some .originDoesntExist)
    (hpar : br.parents = [p]) (hpid : p ≠ id)
    (hpb : g.getBranch p = some pb)
    (hreb : rebase_branch o b1 pb.git_name = (b2, .ok ()))
    (hploop : pruneLoop o ((g.modifyBranch id (fun _ => b1)).modifyBranch id (fun _ => b2))
      id br.git_name [p] [p] (ev1 ++ [.rebaseAttempt b1.git_name pb.git_name]) =
      some (g3, pruned, evs3)) :
    update_branch o g id failed skipped =
      some (g3, failed, if pruned then insertSet skipped id else skipped, evs3) := by
  have hp1 : (g.modifyBranch id (fun _ => b1)).getBranch p = some pb := by
    rw [getBranch_modifyBranch, if_neg hpid, hpb]
  have hid1 : (g.modifyBranch id (fun _ => b1)).getBranch id = some b1 := by
    rw [getBranch_modifyBranch, if_pos rfl, h]
    rfl
  rcases hno with h0 | h0 <;> subst h0 <;>
    simp only [update_branch, h, hany, hanyp, hstep, hpar, hp1, hid1, hreb, hploop] <;>
    cases pruned <;> rfl

theorem pruneLoop_nil (o : GitOracle) (g : Dag) (id : Nat) (bn : String)
    (ps : List Nat) (evs : List GitEvent) :
    pruneLoop o g id bn ps [] evs = some (g, false, evs) := rfl

theorem pruneLoop_cons_noanc (o : GitOracle) (g : Dag) (id : Nat) (bn : String)
    (ps : List Nat) (p : Nat) (rem : List Nat) (evs : List GitEvent) (pb : Branch)
    (hp : g.getBranch p = some pb)
    (hanc : (match o.isAncestor pb.git_name bn with
      | .ok result => result
      | .error _ => false) = false) :
    pruneLoop o g id bn ps (p :: rem) evs =
      pruneLoop o g id bn ps rem (evs ++ [.ancestorCheck pb.git_name bn]) := by
  conv_lhs => unfold pruneLoop
  simp only [hp, hanc]
  rfl

theorem rb_success (o : GitOracle) (b : Branch) (target : String)
    (houtcome : o.rebaseOutcome b.git_name target = .success) :
    rebase_branch o b target = ({ b with last_failed_rebase := none }, .ok ()) := by
  simp only [rebase_branch, houtcome]

theorem rb_conflict (o : GitOracle) (b : Branch) (target : String)
    (houtcome : o.rebaseOutcome b.git_name target = .conflictAbortOk) :
    rebase_branch o b target = ({ b with last_failed_rebase := some target },
      .error ("Rebase of " ++ b.git_name ++ " onto " ++ target ++ " failed with conflicts")) := by
  simp only [rebase_branch, houtcome]

theorem rb_checkout_failed (o : GitOracle) (b : Branch) (target : String)
    (houtcome : o.rebaseOutcome b.git_name target = .checkoutFailed) :
    rebase_branch o b target = (b, .error ("Failed to checkout branch " ++ b.git_name)) := by
  simp only [rebase_branch, houtcome]

theorem rb_abort_failed (o : GitOracle) (b : Branch) (target : String)
    (houtcome : o.rebaseOutcome b.git_name target = .conflictAbortFailed) :
    rebase_branch o b target = (b, .error "Rebase failed and abort also failed") := by
  simp only [rebase_branch, houtcome]

theorem rao_check_err (o : GitOracle) (br : Branch) (e : String)
    (horig : o.originCheck br.git_name = .error e) :
    rebase_against_origin o br =
      (br, some (.other ("Failed to check if origin branch exists: " ++ e)),
        [.originCheck br.git_name]) := by
  simp only [rebase_against_origin, horig]

theorem rao_no_origin (o : GitOracle) (br : Branch)
    (horig : o.originCheck br.git_name = .ok false) :
    rebase_against_origin o br =
      (br, some .originDoesntExist, [.originCheck br.git_name]) := by
  simp only [rebase_against_origin, horig]

theorem rao_origin_success (o : GitOracle) (br : Branch)
    (horig : o.originCheck br.git_name = .ok true)
    (houtcome : o.rebaseOutcome br.git_name ("origin/" ++ br.git_name) = .success) :
    rebase_against_origin o br =
      ({ br with last_failed_rebase := none }, none,
        [.originCheck br.git_name, .rebaseAttempt br.git_name ("origin/" ++ br.git_name)]) := by
  simp only [rebase_against_origin, horig,
    rb_success o br ("origin/" ++ br.git_name) houtcome]

theorem rao_origin_conflict (o : GitOracle) (br : Branch)
    (horig : o.originCheck br.git_name = .ok true)
    (houtcome : o.rebaseOutcome br.git_name ("origin/" ++ br.git_name) = .conflictAbortOk) :
    rebase_against_origin o br =
      ({ br with last_failed_rebase := some ("origin/" ++ br.git_name) },
        some (.other ("Rebase of " ++ br.git_name ++ " onto " ++ ("origin/" ++ br.git_name) ++
          " failed with conflicts")),
        [.originCheck br.git_name, .rebaseAttempt br.git_name ("origin/" ++ br.git_name)]) := by
  simp only [rebase_against_origin, horig,
    rb_conflict o br ("origin/" ++ br.git_name) houtcome]

theorem rao_origin_checkout_failed (o : GitOracle) (br : Branch)
    (horig : o.originCheck br.git_name = .ok true)
    (houtcome : o.rebaseOutcome br.git_name ("origin/" ++ br.git_name) = .checkoutFailed) :
    rebase_against_origin o br =
      (br, some (.other ("Failed to checkout branch " ++ br.git_name)),
        [.originCheck br.git_name, .rebaseAttempt br.git_name ("origin/" ++ br.git_name)]) := by
  simp only [rebase_against_origin, horig,
    rb_checkout_failed o br ("origin/" ++ br.git_name) houtcome]

theorem update_branch_proceeds (o : GitOracle) (g : Dag) (id : Nat)
    (failed skipped : List Nat) (br b1 : Branch) (oerr : Option RebaseOriginError)
    (ev1 : List GitEvent)
    (h : g.getBranch id = some br)
    (hany : (br.parents.any fun p => decide (p ∈ failed)) = false)
    (hstep : rebase_against_origin o br = (b1, oerr, ev1))
    (hno : oerr = none ∨ oerr = some .originDoesntExist)
    (hlen : br.parents.length ≤ 1)
    (hnid : ∀ q ∈ br.parents, q ≠ id)
    (hnf : ∀ q ∈ br.parents, q ∉ failed) :
    ∃ g2 f2 s2 tr, update_branch o g id failed skipped = some (g2, f2, s2, ev1 ++ tr) := by
  rcases hpar : br.parents with _ | ⟨p, rest⟩
  · exact ⟨_, _, _, [], by
      rw [update_branch_no_parents o g id failed skipped br b1 oerr ev1 h hany hstep hno hpar,
        List.append_nil]⟩
  · have hrest : rest = [] := by
      cases rest with
      | nil => rfl
      | cons q t =>
        rw [hpar] at hlen
        simp at hlen
    subst hrest
    have hpmem : p ∈ br.parents := by
      rw [hpar]
      exact List.mem_cons_self _ _
    have hpid : p ≠ id := hnid p hpmem
    have hanyp : (([p] : List Nat).any fun q => decide (q ∈ failed)) = false := by
      simp only [List.any_cons, List.any_nil, Bool.or_false]
      simpa using hnf p hpmem
    cases hpb : g.getBranch p with
    | none =>
      exact ⟨_, _, _, [], by
        rw [update_branch_parent_missing o g id p failed skipped br b1 oerr ev1 h hany hanyp
          hstep hno hpar hpid hpb, List.append_nil]⟩
    | some pb =>
      rcases hrb : rebase_branch o b1 pb.git_name with ⟨b2, res2⟩
      cases res2 with
      | error e2 =>
        exact ⟨_, _, _, [.rebaseAttempt b1.git_name pb.git_name], by
          rw [update_branch_parent_rebase_failed o g id p failed skipped br b1 b2 pb oerr ev1
            e2 h hany hanyp hstep hno hpar hpid hpb hrb]⟩
      | ok u =>
        cases u
        obtain ⟨g3, pruned, evs3, hploop⟩ := pruneLoop_some o
          ((g.modifyBranch id (fun _ => b1)).modifyBranch id (fun _ => b2)) id br.git_name
          [p] [p] (ev1 ++ [.rebaseAttempt b1.git_name pb.git_name])
          (by
            intro q hq
            have : q = p := by simpa using hq
            rw [this]
            exact hpid)
        refine ⟨g3, failed, if pruned then insertSet skipped id else skipped,
          [.rebaseAttempt b1.git_name pb.git_name] ++ evs3, ?_⟩
        rw [update_branch_parent_rebase_ok o g id p failed skipped br b1 b2 pb oerr ev1 g3
          pruned _ h hany hanyp hstep hno hpar hpid hpb hrb hploop, List.append_assoc]

/-- Claim C4 — a branch with a direct parent in `failed` is put into
`skipped` with graph, failed set and command trace untouched (neither
rebase is attempted: the trace is empty); a branch with no failed direct
parent (and at most one parent, none of them itself) is processed: its
remote-sync check is issued first. -/
theorem claim_C4_skip_on_failed_parent (o : GitOracle) (g : Dag) (id : Nat)
    (failed skipped : List Nat) (br : Branch)
    (h : g.getBranch id = some br) :
    ((∃ p ∈ br.parents, p ∈ failed) →
      update_branch o g id failed skipped = some (g, failed, insertSet skipped id, [])) ∧
    ((∀ p ∈ br.parents, p ∉ failed) → br.parents.length ≤ 1 →
      (∀ p ∈ br.parents, p ≠ id) →
      ∃ g2 f2 s2 tr, update_branch o g id failed skipped =
        some (g2, f2, s2, .originCheck br.git_name :: tr)) := by
  constructor
  · intro hex
    obtain ⟨p, hp, hpf⟩ := hex
    have hany : (br.parents.any fun q => decide (q ∈ failed)) = true :=
      List.any_eq_true.mpr ⟨p, hp, by simpa using hpf⟩
    exact update_branch_skip o g id failed skipped br h hany
  · intro hnf hlen hnid
    have hany : (br.parents.any fun q => decide (q ∈ failed)) = false := by
      rw [List.any_eq_false]
      intro q hq
      simpa using hnf q hq
    cases horig : o.originCheck br.git_name with
    | error e =>
      exact ⟨g.modifyBranch id (fun _ => br), insertSet failed id, skipped, [],
        update_branch_origin_failed o g id failed skipped br br _ _ h hany
          (rao_check_err o br e horig)⟩
    | ok b =>
      cases b with
      | false =>
        obtain ⟨g2, f2, s2, tr, heq⟩ := update_branch_proceeds o g id failed skipped br br
          (some .originDoesntExist) [.originCheck br.git_name] h hany
          (rao_no_origin o br horig) (Or.inr rfl) hlen hnid hnf
        exact ⟨g2, f2, s2, tr, heq⟩
      | true =>
        cases houtcome : o.rebaseOutcome br.git_name ("origin/" ++ br.git_name) with
        | success =>
          obtain ⟨g2, f2, s2, tr, heq⟩ := update_branch_proceeds o g id failed skipped br
            { br with last_failed_rebase := none } none
            [.originCheck br.git_name, .rebaseAttempt br.git_name ("origin/" ++ br.git_name)]
            h hany (rao_origin_success o br horig houtcome) (Or.inl rfl) hlen hnid hnf
          exact ⟨g2, f2, s2, .rebaseAttempt br.git_name ("origin/" ++ br.git_name) :: tr, heq⟩
        | checkoutFailed =>
          exact ⟨g.modifyBranch id (fun _ => br), insertSet failed id, skipped,
            [.rebaseAttempt br.git_name ("origin/" ++ br.git_name)],
            update_branch_origin_failed o g id failed skipped br br _ _ h hany
              (rao_origin_checkout_failed o br horig houtcome)⟩
        | conflictAbortOk =>
          exact ⟨g.modifyBranch id
              (fun _ => { br with last_failed_rebase := some ("origin/" ++ br.git_name) }),
            insertSet failed id, skipped,
            [.rebaseAttempt br.git_name ("origin/" ++ br.git_name)],
            update_branch_origin_failed o g id failed skipped br
              { br with last_failed_rebase := some ("origin/" ++ br.git_name) } _ _ h hany
              (rao_origin_conflict o br horig houtcome)⟩
        | conflictAbortFailed =>
          exact ⟨g.modifyBranch id (fun _ => br), insertSet failed id, skipped,
            [.rebaseAttempt br.git_name ("origin/" ++ br.git_name)],
            update_branch_origin_failed o g id failed skipped br br
              "Rebase failed and abort also failed" _ h hany
              (by simp only [rebase_against_origin, horig,
                rb_abort_failed o br ("origin/" ++ br.git_name) houtcome])⟩

/-- C4 witness graph: the chain A → B → C. -/
def dagChain : Dag :=
  { branches := [
      (1, { uid := 1, parents := [], children := [2], git_name := "A",
            last_failed_rebase := none, pr_number := none }),
      (2, { uid := 2, parents := [1], children := [3], git_name := "B",
            last_failed_rebase := none, pr_number := none }),
      (3, { uid := 3, parents := [2], children := [], git_name := "C",
            last_failed_rebase := none, pr_number := none })],
    next_branch_id := 4 }

/-- C4 witness oracle: no origin branches, B conflicts on its parent
rebase, everything else succeeds, no prune ancestries. -/
def oracleC4 : GitOracle :=
  { originCheck := fun _ => .ok false
    rebaseOutcome := fun b _ => if b = "B" then .conflictAbortOk else .success
    isAncestor := fun _ _ => .ok false
    commitDistance := fun _ _ => .ok 1
    prCreate := fun _ _ => .error "unavailable"
    prEdit := fun _ _ => .ok ()
    fetchResult := .ok () }

/-- The chain graph after the sweep: B is stamped, nothing else moved. -/
def dagChainAfter : Dag :=
  { branches := [
      (1, { uid := 1, parents := [], children := [2], git_name := "A",
            last_failed_rebase := none, pr_number := none }),
      (2, { uid := 2, parents := [1], children := [3], git_name := "B",
            last_failed_rebase := some "A", pr_number := none }),
      (3, { uid := 3, parents := [2], children := [], git_name := "C",
            last_failed_rebase := none, pr_number := none })],
    next_branch_id := 4 }

theorem claim_C4_witness :
    ((∃ p ∈ [(2 : Nat)], p ∈ [(2 : Nat)]) ∧
      update_branch oracleC4 dagChain 3 [2] [] = some (dagChain, [2], [3], []) ∧
      (∃ g2 f2 s2 tr, update_branch oracleC4 dagChain 1 [2] [] =
        some (g2, f2, s2, .originCheck "A" :: tr))) ∧
    handle_update oracleC4 dagChain = some (dagChainAfter, [2], [3]) := by
  constructor
  · refine ⟨⟨2, by decide, by decide⟩, ?_, ?_⟩
    · exact (claim_C4_skip_on_failed_parent oracleC4 dagChain 3 [2] []
        { uid := 3, parents := [2], children := [], git_name := "C",
          last_failed_rebase := none, pr_number := none } (by rfl)).1
        ⟨2, by decide, by decide⟩
    · exact (claim_C4_skip_on_failed_parent oracleC4 dagChain 1 [2] []
        { uid := 1, parents := [], children := [2], git_name := "A",
          last_failed_rebase := none, pr_number := none } (by rfl)).2
        (by intro p hp; simp at hp) (by decide) (by intro p hp; simp at hp)
  · rfl

/-- Claim C2 (amended) — failure/stamp bookkeeping of the rebase steps of
`update_branch`: a conflict whose abort succeeds, on the remote sync or
on the parent rebase, records the branch in `failed` AND stamps
`last_failed_rebase` with the attempted target; a checkout failure (at
either site), a conflict whose abort also fails (at either site), and a
failure of the origin-existence check each record the branch in `failed`
but leave `last_failed_rebase` untouched; a successful parent rebase
(with no prune firing) clears `last_failed_rebase` and records no
failure, and so does a successful remote-sync rebase of a root branch.
Conjuncts in order: (1) remote-sync conflict/abort-ok, (2) remote-sync
checkout failure, (3) parent conflict/abort-ok, (4) parent success,
(5) origin-existence-check failure, (6) remote-sync conflict/abort-
failed, (7) parent checkout failure, (8) parent conflict/abort-failed,
(9) remote-sync success on a root. -/
theorem claim_C2_rebase_failure_bookkeeping (o : GitOracle) (g : Dag) (id : Nat)
    (failed skipped : List Nat) (br : Branch)
    (h : g.getBranch id = some br)
    (hskip : ∀ q ∈ br.parents, q ∉ failed) :
    (o.originCheck br.git_name = .ok true →
      o.rebaseOutcome br.git_name ("origin/" ++ br.git_name) = .conflictAbortOk →
      ∃ g2 tr, update_branch o g id failed skipped =
          some (g2, insertSet failed id, skipped, tr) ∧
        g2.getBranch id =
          some { br with last_failed_rebase := some ("origin/" ++ br.git_name) }) ∧
    (o.originCheck br.git_name = .ok true →
      o.rebaseOutcome br.git_name ("origin/" ++ br.git_name) = .checkoutFailed →
      ∃ g2 tr, update_branch o g id failed skipped =
          some (g2, insertSet failed id, skipped, tr) ∧
        g2.getBranch id = some br) ∧
    (∀ p pb, o.originCheck br.git_name = .ok false → br.parents = [p] → p ≠ id →
      g.getBranch p = some pb →
      o.rebaseOutcome br.git_name pb.git_name = .conflictAbortOk →
      ∃ g2 tr, update_branch o g id failed skipped =
          some (g2, insertSet failed id, skipped, tr) ∧
        g2.getBranch id = some { br with last_failed_rebase := some pb.git_name }) ∧
    (∀ p pb, o.originCheck br.git_name = .ok false → br.parents = [p] → p ≠ id →
      g.getBranch p = some pb →
      o.rebaseOutcome br.git_name pb.git_name = .success →
      o.isAncestor pb.git_name br.git_name = .ok false →
      ∃ g2 tr, update_branch o g id failed skipped = some (g2, failed, skipped, tr) ∧
        g2.getBranch id = some { br with last_failed_rebase := none }) ∧
    (∀ e, o.originCheck br.git_name = .error e →
      ∃ g2 tr, update_branch o g id failed skipped =
          some (g2, insertSet failed id, skipped, tr) ∧
        g2.getBranch id = some br) ∧
    (o.originCheck br.git_name = .ok true →
      o.rebaseOutcome br.git_name ("origin/" ++ br.git_name) = .conflictAbortFailed →
      ∃ g2 tr, update_branch o g id failed skipped =
          some (g2, insertSet failed id, skipped, tr) ∧
        g2.getBranch id = some br) ∧
    (∀ p pb, o.originCheck br.git_name = .ok false → br.parents = [p] → p ≠ id →
      g.getBranch p = some pb →
      o.rebaseOutcome br.git_name pb.git_name = .checkoutFailed →
      ∃ g2 tr, update_branch o g id failed skipped =
          some (g2, insertSet failed id, skipped, tr) ∧
        g2.getBranch id = some br) ∧
    (∀ p pb, o.originCheck br.git_name = .ok false → br.parents = [p] → p ≠ id →
      g.getBranch p = some pb →
      o.rebaseOutcome br.git_name pb.git_name = .conflictAbortFailed →
      ∃ g2 tr, update_branch o g id failed skipped =
          some (g2, insertSet failed id, skipped, tr) ∧
        g2.getBranch id = some br) ∧
    (o.originCheck br.git_name = .ok true →
      o.rebaseOutcome br.git_name ("origin/" ++ br.git_name) = .success →
      br.parents = [] →
      ∃ g2 tr, update_branch o g id failed skipped = some (g2, failed, skipped, tr) ∧
        g2.getBranch id = some { br with last_failed_rebase := none }) := by
  have hany : (br.parents.any fun q => decide (q ∈ failed)) = false := by
    rw [List.any_eq_false]
    intro q hq
    simpa using hskip q hq
  refine ⟨?_, ?_, ?_, ?_, ?_, ?_, ?_, ?_, ?_⟩
  · intro horig houtcome
    refine ⟨g.modifyBranch id
        (fun _ => { br with last_failed_rebase := some ("origin/" ++ br.git_name) }),
      _, update_branch_origin_failed o g id failed skipped br _ _ _ h hany
        (rao_origin_conflict o br horig houtcome), ?_⟩
    rw [getBranch_modifyBranch, if_pos rfl, h]
    rfl
  · intro horig houtcome
    refine ⟨g.modifyBranch id (fun _ => br),
      _, update_branch_origin_failed o g id failed skipped br _ _ _ h hany
        (rao_origin_checkout_failed o br horig houtcome), ?_⟩
    rw [getBranch_modifyBranch, if_pos rfl, h]
    rfl
  · intro p pb horig hpar hpid hpb houtcome
    have hanyp : (([p] : List Nat).any fun q => decide (q ∈ failed)) = false := by
      simp only [List.any_cons, List.any_nil, Bool.or_false]
      simpa using hskip p (by rw [hpar]; exact List.mem_cons_self _ _)
    refine ⟨(g.modifyBranch id (fun _ => br)).modifyBranch id
        (fun _ => { br with last_failed_rebase := some pb.git_name }),
      _, update_branch_parent_rebase_failed o g id p failed skipped br br
        { br with last_failed_rebase := some pb.git_name } pb _ _ _ h hany hanyp
        (rao_no_origin o br horig) (Or.inr rfl) hpar hpid hpb
        (rb_conflict o br pb.git_name houtcome), ?_⟩
    rw [getBranch_modifyBranch, if_pos rfl, getBranch_modifyBranch, if_pos rfl, h]
    rfl
  · intro p pb horig hpar hpid hpb houtcome hanc
    have hanyp : (([p] : List Nat).any fun q => decide (q ∈ failed)) = false := by
      simp only [List.any_cons, List.any_nil, Bool.or_false]
      simpa using hskip p (by rw [hpar]; exact List.mem_cons_self _ _)
    have hp2 : ((g.modifyBranch id (fun _ => br)).modifyBranch id
        (fun _ => { br with last_failed_rebase := none })).getBranch p = some pb := by
      rw [getBranch_modifyBranch, if_neg hpid, getBranch_modifyBranch, if_neg hpid, hpb]
    have hancm : (match o.isAncestor pb.git_name br.git_name with
        | .ok result => result
        | .error _ => false) = false := by
      rw [hanc]
    have hploop : pruneLoop o ((g.modifyBranch id (fun _ => br)).modifyBranch id
        (fun _ => { br with last_failed_rebase := none })) id br.git_name [p] [p]
        ([.originCheck br.git_name] ++ [.rebaseAttempt br.git_name pb.git_name]) =
        some ((g.modifyBranch id (fun _ => br)).modifyBranch id
          (fun _ => { br with last_failed_rebase := none }), false,
          ([.originCheck br.git_name] ++ [.rebaseAttempt br.git_name pb.git_name]) ++
            [.ancestorCheck pb.git_name br.git_name]) := by
      rw [pruneLoop_cons_noanc o _ id br.git_name [p] p [] _ pb hp2 hancm, pruneLoop_nil]
    have := update_branch_parent_rebase_ok o g id p failed skipped br br
      { br with last_failed_rebase := none } pb (some .originDoesntExist)
      [.originCheck br.git_name] _ false _ h hany hanyp
      (rao_no_origin o br horig) (Or.inr rfl) hpar hpid hpb
      (rb_success o br pb.git_name houtcome) hploop
    refine ⟨(g.modifyBranch id (fun _ => br)).modifyBranch id
        (fun _ => { br with last_failed_rebase := none }), _, by simpa using this, ?_⟩
    rw [getBranch_modifyBranch, if_pos rfl, getBranch_modifyBranch, if_pos rfl, h]
    rfl
  · intro e horig
    refine ⟨g.modifyBranch id (fun _ => br),
      _, update_branch_origin_failed o g id failed skipped br br _ _ h hany
        (rao_check_err o br e horig), ?_⟩
    rw [getBranch_modifyBranch, if_pos rfl, h]
    rfl
  · intro horig houtcome
    refine ⟨g.modifyBranch id (fun _ => br),
      _, update_branch_origin_failed o g id failed skipped br br
        "Rebase failed and abort also failed"
        [.originCheck br.git_name, .rebaseAttempt br.git_name ("origin/" ++ br.git_name)]
        h hany
        (by simp only [rebase_against_origin, horig,
          rb_abort_failed o br ("origin/" ++ br.git_name) houtcome]), ?_⟩
    rw [getBranch_modifyBranch, if_pos rfl, h]
    rfl
  · intro p pb horig hpar hpid hpb houtcome
    have hanyp : (([p] : List Nat).any fun q => decide (q ∈ failed)) = false := by
      simp only [List.any_cons, List.any_nil, Bool.or_false]
      simpa using hskip p (by rw [hpar]; exact List.mem_cons_self _ _)
    refine ⟨(g.modifyBranch id (fun _ => br)).modifyBranch id (fun _ => br),
      _, update_branch_parent_rebase_failed o g id p failed skipped br br br pb _ _ _
        h hany hanyp (rao_no_origin o br horig) (Or.inr rfl) hpar hpid hpb
        (rb_checkout_failed o br pb.git_name houtcome), ?_⟩
    rw [getBranch_modifyBranch, if_pos rfl, getBranch_modifyBranch, if_pos rfl, h]
    rfl
  · intro p pb horig hpar hpid hpb houtcome
    have hanyp : (([p] : List Nat).any fun q => decide (q ∈ failed)) = false := by
      simp only [List.any_cons, List.any_nil, Bool.or_false]
      simpa using hskip p (by rw [hpar]; exact List.mem_cons_self _ _)
    refine ⟨(g.modifyBranch id (fun _ => br)).modifyBranch id (fun _ => br),
      _, update_branch_parent_rebase_failed o g id p failed skipped br br br pb _ _ _
        h hany hanyp (rao_no_origin o br horig) (Or.inr rfl) hpar hpid hpb
        (rb_abort_failed o br pb.git_name houtcome), ?_⟩
    rw [getBranch_modifyBranch, if_pos rfl, getBranch_modifyBranch, if_pos rfl, h]
    rfl
  · intro horig houtcome hpar
    refine ⟨g.modifyBranch id (fun _ => { br with last_failed_rebase := none }),
      _, update_branch_no_parents o g id failed skipped br
        { br with last_failed_rebase := none } none _ h hany
        (rao_origin_success o br horig houtcome) (Or.inl rfl) hpar, ?_⟩
    rw [getBranch_modifyBranch, if_pos rfl, h]
    rfl

/-- C2 counterexample graph and oracle: a single branch whose remote-sync
checkout fails. -/
def dagB : Dag := (Dag.new.create_branch "b").1

def oracleC2 : GitOracle :=
  { originCheck := fun _ => .ok true
    rebaseOutcome := fun _ _ => .checkoutFailed
    isAncestor := fun _ _ => .ok false
    commitDistance := fun _ _ => .ok 1
    prCreate := fun _ _ => .error "unavailable"
    prEdit := fun _ _ => .ok ()
    fetchResult := .ok () }

/-- C2 counterexample — the claim as stated is false: the checkout step
of the remote-sync rebase of branch `b` fails, the branch id is recorded
in `failed`, yet `last_failed_rebase` is NOT stamped with the attempted
target `origin/b` — it stays `none` (the code stamps only on a rebase
conflict whose abort succeeds; the repository test
`test_rebase_branch_nonexistent_branch` asserts exactly this). -/
theorem claim_C2_counterexample :
    update_branch oracleC2 dagB 1 [] [] =
      some (dagB, [1], [], [.originCheck "b", .rebaseAttempt "b" "origin/b"]) ∧
    dagB.getBranch 1 = some (Branch.with_id 1 "b") ∧
    (Branch.with_id 1 "b").last_failed_rebase = none ∧
    (Branch.with_id 1 "b").last_failed_rebase ≠ some "origin/b" := by
  refine ⟨by rfl, by rfl, rfl, by decide⟩

/-- C2 witness oracles: the amended bookkeeping at a concrete chain graph
with a parent-rebase conflict whose abort succeeds (case 3 of the
theorem, stamps) and with one whose abort also fails (case 8, leaves the
stamp untouched). -/
def oracleC2w : GitOracle :=
  { originCheck := fun _ => .ok false
    rebaseOutcome := fun _ _ => .conflictAbortOk
    isAncestor := fun _ _ => .ok false
    commitDistance := fun _ _ => .ok 1
    prCreate := fun _ _ => .error "unavailable"
    prEdit := fun _ _ => .ok ()
    fetchResult := .ok () }

def oracleC2x : GitOracle :=
  { originCheck := fun _ => .ok false
    rebaseOutcome := fun _ _ => .conflictAbortFailed
    isAncestor := fun _ _ => .ok false
    commitDistance := fun _ _ => .ok 1
    prCreate := fun _ _ => .error "unavailable"
    prEdit := fun _ _ => .ok ()
    fetchResult := .ok () }

def brA : Branch :=
  { uid := 1, parents := [], children := [2], git_name := "A",
    last_failed_rebase := none, pr_number := none }

def brB : Branch :=
  { uid := 2, parents := [1], children := [3], git_name := "B",
    last_failed_rebase := none, pr_number := none }

theorem claim_C2_witness :
    (∃ g2 tr, update_branch oracleC2w dagChain 2 [] [] = some (g2, insertSet [] 2, [], tr) ∧
      g2.getBranch 2 = some { brB with last_failed_rebase := some "A" }) ∧
    (∃ g2 tr, update_branch oracleC2x dagChain 2 [] [] = some (g2, insertSet [] 2, [], tr) ∧
      g2.getBranch 2 = some brB) :=
  ⟨(claim_C2_rebase_failure_bookkeeping oracleC2w dagChain 2 [] [] brB (by rfl)
      (by intro q hq; simp [brB] at hq; simp [hq])).2.2.1 1 brA
      rfl rfl (by decide) (by rfl) rfl,
   (claim_C2_rebase_failure_bookkeeping oracleC2x dagChain 2 [] [] brB (by rfl)
      (by intro q hq; simp [brB] at hq; simp [hq])).2.2.2.2.2.2.2.1 1 brA
      rfl rfl (by decide) (by rfl) rfl⟩

/-- C1 oracle: no origin branches, every rebase succeeds, and after B's
rebase its parent A is an ancestor of B, so B is pruned. -/
def oracleC1 : GitOracle :=
  { originCheck := fun _ => .ok false
    rebaseOutcome := fun _ _ => .success
    isAncestor := fun a b => if a = "A" ∧ b = "B" then .ok true else .ok false
    commitDistance := fun _ _ => .ok 1
    prCreate := fun _ _ => .error "unavailable"
    prEdit := fun _ _ => .ok ()
    fetchResult := .ok () }

/-- The graph the code actually produces when pruning B out of
A → B → C: the edge between A and C comes out INVERTED — C ends up a
parent of A (A.parents = [3], C.children = [1]) instead of A a parent
of C. -/
def dagC1After : Dag :=
  { branches := [
      (1, { uid := 1, parents := [3], children := [], git_name := "A",
            last_failed_rebase := none, pr_number := none }),
      (3, { uid := 3, parents := [], children := [1], git_name := "C",
            last_failed_rebase := none, pr_number := none })],
    next_branch_id := 4 }

/-- Claim C1 — code bug, evaluated at the failing input: pruning X = B
(id 2) between P = A (id 1) and C (id 3) removes B and detaches it, but
the call `add_parent_child_relationship_by_id(parent_id, child_id)`
passes the prune parent in the `child_id` position of the callee
(src/main.rs line 338 against the signature at src/dag.rs line 138), so
the code inserts C into P.parents and P into C.children — the claimed
"P ∈ C.parents and C ∈ P.children" is exactly inverted. -/
theorem claim_C1_prune_reparent_inverted :
    update_branch oracleC1 dagChain 2 [] [] =
      some (dagC1After, [], [2],
        [.originCheck "B", .rebaseAttempt "B" "A", .ancestorCheck "A" "B"]) ∧
    dagC1After.getBranch 2 = none ∧
    dagC1After.parentsOf 1 = [3] ∧
    dagC1After.childrenOf 1 = [] ∧
    dagC1After.parentsOf 3 = [] ∧
    dagC1After.childrenOf 3 = [1] ∧
    ¬ (1 ∈ dagC1After.parentsOf 3) ∧
    ¬ (3 ∈ dagC1After.childrenOf 1) := by
  refine ⟨by rfl, by rfl, rfl, rfl, rfl, rfl, by decide, by decide⟩

/-! ## Claim C7: parent/child symmetry -/

/-- Parent/child symmetry over the stored entries:
id₂ ∈ parents(id₁) ⇔ id₁ ∈ children(id₂). -/
def Symm (g : Dag) : Prop :=
  ∀ kv ∈ g.branches, ∀ kv2 ∈ g.branches,
    (kv2.1 ∈ kv.2.parents ↔ kv.1 ∈ kv2.2.children)

instance Symm.dec (g : Dag) : Decidable (Symm g) := by
  unfold Symm
  infer_instance

/-- No dangling adjacency references. -/
def Closed (g : Dag) : Prop :=
  ∀ kv ∈ g.branches, (∀ p ∈ kv.2.parents, p ∈ g.keys) ∧ (∀ c ∈ kv.2.children, c ∈ g.keys)

instance Closed.dec (g : Dag) : Decidable (Closed g) := by
  unfold Closed
  infer_instance

theorem mem_addParentTo_iff (p x : Nat) (b : Branch) :
    x ∈ (addParentTo p b).parents ↔ x ∈ b.parents ∨ x = p := by
  unfold addParentTo
  by_cases h : p ∈ b.parents
  · rw [if_pos h]
    constructor
    · exact Or.inl
    · rintro (hx | rfl)
      · exact hx
      · exact h
  · rw [if_neg h]
    simp

theorem mem_addChildTo_iff (c x : Nat) (b : Branch) :
    x ∈ (addChildTo c b).children ↔ x ∈ b.children ∨ x = c := by
  unfold addChildTo
  by_cases h : c ∈ b.children
  · rw [if_pos h]
    constructor
    · exact Or.inl
    · rintro (hx | rfl)
      · exact hx
      · exact h
  · rw [if_neg h]
    simp

theorem addEdgeCore_entries (g : Dag) (c p : Nat) :
    ∀ kv ∈ ((g.modifyBranch c (addParentTo p)).modifyBranch p (addChildTo c)).branches,
      ∃ kv0 ∈ g.branches, kv.1 = kv0.1 ∧
        (∀ x, x ∈ kv.2.parents ↔ x ∈ kv0.2.parents ∨ (kv0.1 = c ∧ x = p)) ∧
        (∀ x, x ∈ kv.2.children ↔ x ∈ kv0.2.children ∨ (kv0.1 = p ∧ x = c)) := by
  intro kv hkv
  unfold Dag.modifyBranch at hkv
  simp only [List.mem_map] at hkv
  obtain ⟨kv1, ⟨kv0, hkv0, hkv0e⟩, hkv1e⟩ := hkv
  refine ⟨kv0, hkv0, ?_, ?_, ?_⟩
  · rw [← hkv1e, ← hkv0e]
    by_cases h0 : kv0.1 = c
    · rw [if_pos h0]
      by_cases h1 : ((kv0.1 : Nat), addParentTo p kv0.2).1 = p
      · rw [if_pos h1]
      · rw [if_neg h1]
    · rw [if_neg h0]
      by_cases h1 : kv0.1 = p
      · rw [if_pos h1]
      · rw [if_neg h1]
  · intro x
    rw [← hkv1e]
    by_cases h1 : kv1.1 = p
    · rw [if_pos h1]
      simp only [addChildTo_parents]
      rw [← hkv0e] at h1 ⊢
      by_cases h0 : kv0.1 = c
      · rw [if_pos h0] at h1 ⊢
        simp only [mem_addParentTo_iff]
        constructor
        · rintro (hx | rfl)
          · exact Or.inl hx
          · exact Or.inr ⟨h0, rfl⟩
        · rintro (hx | ⟨_, rfl⟩)
          · exact Or.inl hx
          · exact Or.inr rfl
      · rw [if_neg h0] at h1 ⊢
        constructor
        · exact Or.inl
        · rintro (hx | ⟨hc, rfl⟩)
          · exact hx
          · exact absurd hc h0
    · rw [if_neg h1]
      rw [← hkv0e] at h1 ⊢
      by_cases h0 : kv0.1 = c
      · rw [if_pos h0] at h1 ⊢
        simp only [mem_addParentTo_iff]
        constructor
        · rintro (hx | rfl)
          · exact Or.inl hx
          · exact Or.inr ⟨h0, rfl⟩
        · rintro (hx | ⟨_, rfl⟩)
          · exact Or.inl hx
          · exact Or.inr rfl
      · rw [if_neg h0] at h1 ⊢
        constructor
        · exact Or.inl
        · rintro (hx | ⟨hc, rfl⟩)
          · exact hx
          · exact absurd hc h0
  · intro x
    rw [← hkv1e]
    by_cases h1 : kv1.1 = p
    · rw [if_pos h1]
      simp only [mem_addChildTo_iff]
      rw [← hkv0e] at h1 ⊢
      by_cases h0 : kv0.1 = c
      · rw [if_pos h0] at h1 ⊢
        simp only [addParentTo_children]
        simp only at h1
        constructor
        · rintro (hx | rfl)
          · exact Or.inl hx
          · exact Or.inr ⟨h1, rfl⟩
        · rintro (hx | ⟨_, rfl⟩)
          · exact Or.inl hx
          · exact Or.inr rfl
      · rw [if_neg h0] at h1 ⊢
        constructor
        · rintro (hx | rfl)
          · exact Or.inl hx
          · exact Or.inr ⟨h1, rfl⟩
        · rintro (hx | ⟨_, rfl⟩)
          · exact Or.inl hx
          · exact Or.inr rfl
    · rw [if_neg h1]
      rw [← hkv0e] at h1 ⊢
      by_cases h0 : kv0.1 = c
      · rw [if_pos h0] at h1 ⊢
        simp only [addParentTo_children]
        simp only at h1
        constructor
        · exact Or.inl
        · rintro (hx | ⟨hp, rfl⟩)
          · exact hx
          · exact absurd hp h1
      · rw [if_neg h0] at h1 ⊢
        constructor
        · exact Or.inl
        · rintro (hx | ⟨hp, rfl⟩)
          · exact hx
          · exact absurd hp h1

theorem Symm_addEdgeCore (g : Dag) (c p : Nat) (hs : Symm g) :
    Symm ((g.modifyBranch c (addParentTo p)).modifyBranch p (addChildTo c)) := by
  intro kv hkv kv2 hkv2
  obtain ⟨kv0, hkv0, hk, hp1, hc1⟩ := addEdgeCore_entries g c p kv hkv
  obtain ⟨kv20, hkv20, hk2, hp2, hc2⟩ := addEdgeCore_entries g c p kv2 hkv2
  rw [hk, hk2, hp1 kv20.1, hc2 kv0.1]
  have hbase := hs kv0 hkv0 kv20 hkv20
  constructor
  · rintro (hx | ⟨hcc, hpp⟩)
    · exact Or.inl (hbase.mp hx)
    · exact Or.inr ⟨hpp, hcc⟩
  · rintro (hx | ⟨hpp, hcc⟩)
    · exact Or.inl (hbase.mpr hx)
    · exact Or.inr ⟨hcc, hpp⟩

theorem modify_entries (g : Dag) (i : Nat) (f : Branch → Branch) :
    ∀ kv ∈ (g.modifyBranch i f).branches,
      ∃ kv0 ∈ g.branches, kv = (if kv0.1 = i then ((kv0.1 : Nat), f kv0.2) else kv0) := by
  intro kv hkv
  unfold Dag.modifyBranch at hkv
  simp only [List.mem_map] at hkv
  obtain ⟨kv0, hkv0, hkv0e⟩ := hkv
  exact ⟨kv0, hkv0, hkv0e.symm⟩

theorem Symm_modify_adjpres (g : Dag) (i : Nat) (f : Branch → Branch)
    (hf : ∀ b, (f b).parents = b.parents ∧ (f b).children = b.children)
    (hs : Symm g) : Symm (g.modifyBranch i f) := by
  intro kv hkv kv2 hkv2
  obtain ⟨kv0, hkv0, hkv0e⟩ := modify_entries g i f kv hkv
  obtain ⟨kv20, hkv20, hkv20e⟩ := modify_entries g i f kv2 hkv2
  have h1 : kv.1 = kv0.1 ∧ kv.2.parents = kv0.2.parents ∧ kv.2.children = kv0.2.children := by
    rw [hkv0e]
    by_cases h : kv0.1 = i
    · rw [if_pos h]
      exact ⟨rfl, (hf kv0.2).1, (hf kv0.2).2⟩
    · rw [if_neg h]
      exact ⟨rfl, rfl, rfl⟩
  have h2 : kv2.1 = kv20.1 ∧ kv2.2.parents = kv20.2.parents ∧
      kv2.2.children = kv20.2.children := by
    rw [hkv20e]
    by_cases h : kv20.1 = i
    · rw [if_pos h]
      exact ⟨rfl, (hf kv20.2).1, (hf kv20.2).2⟩
    · rw [if_neg h]
      exact ⟨rfl, rfl, rfl⟩
  rw [h1.1, h1.2.1, h2.1, h2.2.2]
  exact hs kv0 hkv0 kv20 hkv20

theorem Symm_modify_const (g : Dag) (id : Nat) (br b1 : Branch)
    (hnd : g.keys.Nodup) (h : g.getBranch id = some br)
    (hpar : b1.parents = br.parents) (hch : b1.children = br.children)
    (hs : Symm g) : Symm (g.modifyBranch id (fun _ => b1)) := by
  intro kv hkv kv2 hkv2
  obtain ⟨kv0, hkv0, hkv0e⟩ := modify_entries g id _ kv hkv
  obtain ⟨kv20, hkv20, hkv20e⟩ := modify_entries g id _ kv2 hkv2
  have hval : ∀ kvx : Nat × Branch, kvx ∈ g.branches → kvx.1 = id → kvx.2 = br := by
    intro kvx hkvx hx
    have : alookup kvx.1 g.branches = some kvx.2 :=
      alookup_eq_some_of_mem hnd (by rw [show ((kvx.1 : Nat), kvx.2) = kvx from rfl]; exact hkvx)
    rw [hx] at this
    rw [show g.getBranch id = alookup id g.branches from rfl] at h
    rw [h] at this
    injection this with this
    exact this.symm
  have h1 : kv.1 = kv0.1 ∧ kv.2.parents = kv0.2.parents ∧ kv.2.children = kv0.2.children := by
    rw [hkv0e]
    by_cases hx : kv0.1 = id
    · rw [if_pos hx]
      rw [hval kv0 hkv0 hx]
      exact ⟨rfl, hpar, hch⟩
    · rw [if_neg hx]
      exact ⟨rfl, rfl, rfl⟩
  have h2 : kv2.1 = kv20.1 ∧ kv2.2.parents = kv20.2.parents ∧
      kv2.2.children = kv20.2.children := by
    rw [hkv20e]
    by_cases hx : kv20.1 = id
    · rw [if_pos hx]
      rw [hval kv20 hkv20 hx]
      exact ⟨rfl, hpar, hch⟩
    · rw [if_neg hx]
      exact ⟨rfl, rfl, rfl⟩
  rw [h1.1, h1.2.1, h2.1, h2.2.2]
  exact hs kv0 hkv0 kv20 hkv20

theorem not_mem_keys_of_getBranch_none (g : Dag) (X : Nat) (h : g.getBranch X = none) :
    ∀ kv ∈ g.branches, kv.1 ≠ X := by
  intro kv hkv hc
  have : (alookup X g.branches).isSome = true := by
    rw [alookup_isSome_iff_mem_keys]
    exact List.mem_map.mpr ⟨kv, hkv, hc⟩
  rw [show alookup X g.branches = g.getBranch X from rfl, h] at this
  exact Bool.noConfusion this

theorem Symm_modify_dropParent (g : Dag) (i X : Nat)
    (hX : g.getBranch X = none) (hs : Symm g) :
    Symm (g.modifyBranch i (dropParent X)) := by
  intro kv hkv kv2 hkv2
  obtain ⟨kv0, hkv0, hkv0e⟩ := modify_entries g i _ kv hkv
  obtain ⟨kv20, hkv20, hkv20e⟩ := modify_entries g i _ kv2 hkv2
  have hk2X : kv20.1 ≠ X := not_mem_keys_of_getBranch_none g X hX kv20 hkv20
  have h1 : kv.1 = kv0.1 ∧ (kv2.1 ∈ kv.2.parents ↔ kv2.1 ∈ kv0.2.parents) ∧
      kv.2.children = kv0.2.children := by
    rw [hkv0e]
    by_cases hx : kv0.1 = i
    · rw [if_pos hx]
      refine ⟨rfl, ?_, rfl⟩
      unfold dropParent
      simp only [List.mem_filter, decide_eq_true_eq]
      constructor
      · exact fun hh => hh.1
      · intro hh
        refine ⟨hh, ?_⟩
        rw [hkv20e]
        by_cases hy : kv20.1 = i
        · rw [if_pos hy]
          exact hk2X
        · rw [if_neg hy]
          exact hk2X
    · rw [if_neg hx]
      exact ⟨rfl, Iff.rfl, rfl⟩
  have h2 : kv2.1 = kv20.1 ∧ kv2.2.children = kv20.2.children := by
    rw [hkv20e]
    by_cases hx : kv20.1 = i
    · rw [if_pos hx]
      exact ⟨rfl, rfl⟩
    · rw [if_neg hx]
      exact ⟨rfl, rfl⟩
  rw [h1.2.1, h1.1, h2.1, h2.2]
  exact hs kv0 hkv0 kv20 hkv20

theorem Symm_modify_dropChild (g : Dag) (i X : Nat)
    (hX : g.getBranch X = none) (hs : Symm g) :
    Symm (g.modifyBranch i (dropChild X)) := by
  intro kv hkv kv2 hkv2
  obtain ⟨kv0, hkv0, hkv0e⟩ := modify_entries g i _ kv hkv
  obtain ⟨kv20, hkv20, hkv20e⟩ := modify_entries g i _ kv2 hkv2
  have hk0X : kv0.1 ≠ X := not_mem_keys_of_getBranch_none g X hX kv0 hkv0
  have h1 : kv.1 = kv0.1 ∧ kv.2.parents = kv0.2.parents := by
    rw [hkv0e]
    by_cases hx : kv0.1 = i
    · rw [if_pos hx]
      exact ⟨rfl, rfl⟩
    · rw [if_neg hx]
      exact ⟨rfl, rfl⟩
  have h2 : kv2.1 = kv20.1 ∧ (kv.1 ∈ kv2.2.children ↔ kv.1 ∈ kv20.2.children) := by
    rw [hkv20e]
    by_cases hx : kv20.1 = i
    · rw [if_pos hx]
      refine ⟨rfl, ?_⟩
      unfold dropChild
      simp only [List.mem_filter, decide_eq_true_eq]
      constructor
      · exact fun hh => hh.1
      · intro hh
        refine ⟨hh, ?_⟩
        rw [h1.1]
        exact hk0X
    · rw [if_neg hx]
      exact ⟨rfl, Iff.rfl⟩
  rw [h2.2, h1.1, h1.2, h2.1]
  exact hs kv0 hkv0 kv20 hkv20

theorem Symm_removeBranch (g : Dag) (X : Nat) (hs : Symm g) : Symm (g.removeBranch X) := by
  intro kv hkv kv2 hkv2
  unfold Dag.removeBranch at hkv hkv2
  simp only [List.mem_filter] at hkv hkv2
  exact hs kv hkv.1 kv2 hkv2.1

theorem getBranch_modify_none (g : Dag) (i X : Nat) (f : Branch → Branch)
    (hX : g.getBranch X = none) : (g.modifyBranch i f).getBranch X = none := by
  rw [getBranch_modifyBranch]
  by_cases h : X = i
  · rw [if_pos h, hX]
    rfl
  · rw [if_neg h]
    exact hX

theorem Symm_foldl_dropChild (X : Nat) :
    ∀ (ps : List Nat) (g : Dag), g.getBranch X = none → Symm g →
      Symm (ps.foldl (fun acc p => acc.modifyBranch p (dropChild X)) g) ∧
      (ps.foldl (fun acc p => acc.modifyBranch p (dropChild X)) g).getBranch X = none := by
  intro ps
  induction ps with
  | nil => exact fun g hX hs => ⟨hs, hX⟩
  | cons p rest ih =>
    intro g hX hs
    rw [List.foldl_cons]
    exact ih (g.modifyBranch p (dropChild X)) (getBranch_modify_none g p X _ hX)
      (Symm_modify_dropChild g p X hX hs)

theorem childLoop_symm (o : GitOracle) (X pid : Nat) (pname : String) :
    ∀ (cs : List Nat) (g : Dag) (evs : List GitEvent) (g2 : Dag) (evs2 : List GitEvent),
      childLoop o X pid pname cs g evs = some (g2, evs2) →
      g.getBranch X = none → Symm g → Symm g2 := by
  intro cs
  induction cs with
  | nil =>
    intro g evs g2 evs2 heq hX hs
    unfold childLoop at heq
    injection heq with heq
    rw [show g2 = g from congrArg Prod.fst heq.symm]
    exact hs
  | cons child rest ih =>
    intro g evs g2 evs2 heq hX hs
    cases hchild : g.getBranch child with
    | none =>
      unfold childLoop at heq
      rw [hchild] at heq
      exact ih g evs g2 evs2 heq hX hs
    | some cb =>
      cases hadd : (g.modifyBranch child (dropParent X)).add_parent_child_relationship_by_id
          pid child with
      | error e =>
        unfold childLoop at heq
        rw [hchild] at heq
        simp only [hadd] at heq
        exact Option.noConfusion heq
      | ok gadd =>
        obtain ⟨hc1, hc2, haddeq⟩ := add_by_id_ok_elim _ pid child gadd hadd
        rw [childLoop_cons_some o X pid pname child rest g evs cb gadd hchild hadd] at heq
        have hX1 : (g.modifyBranch child (dropParent X)).getBranch X = none :=
          getBranch_modify_none g child X _ hX
        have hXadd : gadd.getBranch X = none := by
          rw [haddeq]
          exact getBranch_modify_none _ child X _ (getBranch_modify_none _ pid X _ hX1)
        have hsadd : Symm gadd := by
          rw [haddeq]
          exact Symm_addEdgeCore (g.modifyBranch child (dropParent X)) pid child
            (Symm_modify_dropParent g child X hX hs)
        exact ih gadd _ g2 evs2 heq hXadd hsadd

theorem getBranch_removeBranch_self (g : Dag) (X : Nat) :
    (g.removeBranch X).getBranch X = none := by
  rw [getBranch_removeBranch, if_pos rfl]

theorem pruneLoop_symm (o : GitOracle) (g : Dag) (X : Nat) (bn : String) (ps : List Nat) :
    ∀ (rem : List Nat) (evs : List GitEvent) (g2 : Dag) (pruned : Bool)
      (evs2 : List GitEvent),
      pruneLoop o g X bn ps rem evs = some (g2, pruned, evs2) → Symm g → Symm g2 := by
  intro rem
  induction rem with
  | nil =>
    intro evs g2 pruned evs2 heq hs
    rw [pruneLoop_nil] at heq
    injection heq with heq
    rw [show g2 = g from congrArg Prod.fst heq.symm]
    exact hs
  | cons parent_id rest ih =>
    intro evs g2 pruned evs2 heq hs
    cases hpar : g.getBranch parent_id with
    | none =>
      unfold pruneLoop at heq
      rw [hpar] at heq
      exact ih evs g2 pruned evs2 heq hs
    | some pb =>
      by_cases hanc : (match o.isAncestor pb.git_name bn with
        | .ok result => result
        | .error _ => false) = true
      · unfold pruneLoop at heq
        simp only [hpar, hanc, if_pos] at heq
        have hsfold := Symm_foldl_dropChild X ps (g.removeBranch X)
          (getBranch_removeBranch_self g X) (Symm_removeBranch g X hs)
        cases hcl : childLoop o X parent_id pb.git_name
            (match g.getBranch X with
             | some b => b.children
             | none => [])
            (ps.foldl (fun acc p => acc.modifyBranch p (dropChild X)) (g.removeBranch X))
            (evs ++ [.ancestorCheck pb.git_name bn]) with
        | none =>
          rw [hcl] at heq
          exact Option.noConfusion heq
        | some r =>
          rw [hcl] at heq
          injection heq with heq
          have hg2 : g2 = r.1 := (congrArg Prod.fst heq).symm
          rw [hg2]
          exact childLoop_symm o X parent_id pb.git_name _ _ _ r.1 r.2
            (by rw [show ((r.1 : Dag), r.2) = r from rfl]; exact hcl) hsfold.2 hsfold.1
      · rw [pruneLoop_cons_noanc o g X bn ps parent_id rest evs pb hpar
          (by simpa using hanc)] at heq
        exact ih _ g2 pruned evs2 heq hs

theorem rb_adj (o : GitOracle) (b : Branch) (t : String) :
    (rebase_branch o b t).1.parents = b.parents ∧
      (rebase_branch o b t).1.children = b.children := by
  unfold rebase_branch
  cases o.rebaseOutcome b.git_name t <;> exact ⟨rfl, rfl⟩

theorem rao_adj (o : GitOracle) (b : Branch) :
    (rebase_against_origin o b).1.parents = b.parents ∧
      (rebase_against_origin o b).1.children = b.children := by
  unfold rebase_against_origin
  cases ho : o.originCheck b.git_name with
  | error e => exact ⟨rfl, rfl⟩
  | ok r =>
    cases r with
    | false => exact ⟨rfl, rfl⟩
    | true =>
      simp only
      exact rb_adj o b ("origin/" ++ b.git_name)

theorem ainsert_not_mem {α : Type} (k : Nat) (v : α) (l : List (Nat × α))
    (h : ∀ kv ∈ l, kv.1 ≠ k) : ainsert k v l = l ++ [(k, v)] := by
  induction l with
  | nil => rfl
  | cons hd rest ih =>
    unfold ainsert
    rw [show (hd.1, hd.2) = hd from rfl]
    rw [if_neg (h hd (List.mem_cons_self _ _))]
    rw [ih (fun kv hkv => h kv (List.mem_cons_of_mem _ hkv))]
    rfl

theorem Symm_create (g : Dag) (name : String) (hs : Symm g) (hcl : Closed g)
    (hfresh : g.next_branch_id ∉ g.keys) :
    Symm (g.create_branch name).1 := by
  have hne : ∀ kv ∈ g.branches, kv.1 ≠ g.next_branch_id := by
    intro kv hkv hc
    exact hfresh (List.mem_map.mpr ⟨kv, hkv, hc⟩)
  intro kv hkv kv2 hkv2
  unfold Dag.create_branch at hkv hkv2
  simp only at hkv hkv2
  rw [ainsert_not_mem _ _ _ hne] at hkv hkv2
  rcases List.mem_append.mp hkv with hkv | hkv
  · rcases List.mem_append.mp hkv2 with hkv2 | hkv2
    · exact hs kv hkv kv2 hkv2
    · have hkv2e : kv2 = (g.next_branch_id, Branch.with_id g.next_branch_id name) := by
        simpa using hkv2
      rw [hkv2e]
      simp only [Branch.with_id, List.not_mem_nil, iff_false]
      intro hmem
      exact hfresh ((hcl kv hkv).1 g.next_branch_id hmem)
  · have hkve : kv = (g.next_branch_id, Branch.with_id g.next_branch_id name) := by
      simpa using hkv
    rw [hkve]
    rcases List.mem_append.mp hkv2 with hkv2 | hkv2
    · simp only [Branch.with_id, List.not_mem_nil, false_iff]
      intro hmem
      exact absurd (((hcl kv2 hkv2).2) g.next_branch_id hmem) hfresh
    · have hkv2e : kv2 = (g.next_branch_id, Branch.with_id g.next_branch_id name) := by
        simpa using hkv2
      rw [hkv2e]
      simp [Branch.with_id]

theorem Symm_update_branch (o : GitOracle) (g : Dag) (id : Nat)
    (failed skipped : List Nat) (g1 : Dag) (f1 s1 : List Nat) (tr : List GitEvent)
    (hnd : g.keys.Nodup)
    (heq : update_branch o g id failed skipped = some (g1, f1, s1, tr))
    (hs : Symm g) : Symm g1 := by
  cases h : g.getBranch id with
  | none =>
    unfold update_branch at heq
    rw [h] at heq
    injection heq with heq
    rw [show g1 = g from (congrArg Prod.fst heq).symm]
    exact hs
  | some br =>
    simp only [update_branch, h] at heq
    split at heq
    · injection heq with heq
      rw [show g1 = g from (congrArg Prod.fst heq).symm]
      exact hs
    · have hadj := rao_adj o br
      have hsym1 : Symm (g.modifyBranch id fun _ => (rebase_against_origin o br).1) :=
        Symm_modify_const g id br _ hnd h hadj.1 hadj.2 hs
      have h1nd : (g.modifyBranch id fun _ => (rebase_against_origin o br).1).keys.Nodup := by
        rw [keys_modifyBranch]
        exact hnd
      have hget1 : (g.modifyBranch id fun _ =>
          (rebase_against_origin o br).1).getBranch id =
          some ((rebase_against_origin o br).1) := by
        rw [getBranch_modifyBranch, if_pos rfl, h]
        rfl
      split at heq
      · injection heq with heq
        rw [show g1 = (g.modifyBranch id fun _ => (rebase_against_origin o br).1) from
          (congrArg Prod.fst heq).symm]
        exact hsym1
      · split at heq
        · rw [if_neg Bool.false_ne_true] at heq
          split at heq
          · exact Option.noConfusion heq
          · rename_i g2 pruned evs2 hploop
            split at heq <;>
              (injection heq with heq
               rw [show g1 = g2 from (congrArg Prod.fst heq).symm]
               exact pruneLoop_symm o _ id br.git_name br.parents br.parents _ g2 pruned
                 evs2 hploop hsym1)
        · split at heq
          · exact Option.noConfusion heq
          · split at heq
            · injection heq with heq
              rw [show g1 = (g.modifyBranch id fun _ => (rebase_against_origin o br).1) from
                (congrArg Prod.fst heq).symm]
              exact hsym1
            · rename_i parent_branch hfp
              split at heq
              · rw [if_neg Bool.false_ne_true] at heq
                split at heq
                · exact Option.noConfusion heq
                · rename_i g2 pruned evs2 hploop
                  split at heq <;>
                    (injection heq with heq
                     rw [show g1 = g2 from (congrArg Prod.fst heq).symm]
                     exact pruneLoop_symm o _ id br.git_name br.parents br.parents _ g2
                       pruned evs2 hploop hsym1)
              · rename_i bcur hbcur
                have hbcur2 : bcur = (rebase_against_origin o br).1 := by
                  rw [hget1] at hbcur
                  injection hbcur with hbcur
                  exact hbcur.symm
                have hadj2 := rb_adj o bcur parent_branch.git_name
                have hsym2 : Symm ((g.modifyBranch id fun _ =>
                    (rebase_against_origin o br).1).modifyBranch id fun _ =>
                    (rebase_branch o bcur parent_branch.git_name).1) := by
                  refine Symm_modify_const _ id ((rebase_against_origin o br).1) _ h1nd
                    hget1 ?_ ?_ hsym1
                  · rw [hadj2.1, hbcur2]
                  · rw [hadj2.2, hbcur2]
                split at heq
                · injection heq with heq
                  rw [show g1 = ((g.modifyBranch id fun _ =>
                      (rebase_against_origin o br).1).modifyBranch id fun _ =>
                      (rebase_branch o bcur parent_branch.git_name).1) from
                    (congrArg Prod.fst heq).symm]
                  exact hsym2
                · split at heq
                  · exact Option.noConfusion heq
                  · rename_i g2 pruned evs2 hploop
                    split at heq <;>
                      (injection heq with heq
                       rw [show g1 = g2 from (congrArg Prod.fst heq).symm]
                       exact pruneLoop_symm o _ id br.git_name br.parents br.parents _ g2
                         pruned evs2 hploop hsym2)

/-- Claim C7 (amended) — parent/child symmetry is preserved by
`create_branch` (on graphs without dangling references and with a fresh
counter), by `add_parent_child_relationship` by id and by name, and by
the whole of `update_branch` (the orchestrator step including the
prune/reparent); `insert_branch` is dropped from the list — it does not
preserve symmetry in general (see the counterexample). -/
theorem claim_C7_symmetry_preservation (g : Dag) (hs : Symm g) :
    (∀ name, Closed g → g.next_branch_id ∉ g.keys → Symm (g.create_branch name).1) ∧
    (∀ c p g2, g.add_parent_child_relationship_by_id c p = .ok g2 → Symm g2) ∧
    (∀ cn pn g2, g.add_parent_child_relationship cn pn = .ok g2 → Symm g2) ∧
    (∀ o id failed skipped g2 f2 s2 tr, g.keys.Nodup →
      update_branch o g id failed skipped = some (g2, f2, s2, tr) → Symm g2) := by
  refine ⟨?_, ?_, ?_, ?_⟩
  · intro name hcl hfresh
    exact Symm_create g name hs hcl hfresh
  · intro c p g2 hadd
    obtain ⟨_, _, rfl⟩ := add_by_id_ok_elim g c p g2 hadd
    exact Symm_addEdgeCore g c p hs
  · intro cn pn g2 hadd
    unfold Dag.add_parent_child_relationship at hadd
    cases hfc : g.find_branch_by_name cn with
    | none =>
      rw [hfc] at hadd
      exact Except.noConfusion hadd
    | some cb =>
      cases hfp : g.find_branch_by_name pn with
      | none =>
        rw [hfc, hfp] at hadd
        exact Except.noConfusion hadd
      | some pb =>
        rw [hfc, hfp] at hadd
        injection hadd with hadd
        rw [← hadd]
        exact Symm_addEdgeCore g cb.uid pb.uid hs
  · intro o id failed skipped g2 f2 s2 tr hnd heq
    exact Symm_update_branch o g id failed skipped g2 f2 s2 tr hnd heq hs

/-- C7 counterexample graph: one tracked branch. -/
def dagMain : Dag := (Dag.new.create_branch "main").1

/-- C7 counterexample branch: carries a parent edge to id 1 that id 1
does not reciprocate. -/
def brFeat : Branch :=
  { uid := 2, parents := [1], children := [], git_name := "feat",
    last_failed_rebase := none, pr_number := none }

/-- C7 counterexample — `insert_branch` is a mutating graph operation
that does NOT preserve parent/child symmetry: inserting a branch whose
parents list names an existing branch leaves that branch's children
list unchanged. -/
theorem claim_C7_counterexample :
    Symm dagMain ∧
    ¬ Symm (dagMain.insert_branch brFeat) ∧
    1 ∈ (dagMain.insert_branch brFeat).parentsOf 2 ∧
    ¬ 2 ∈ (dagMain.insert_branch brFeat).childrenOf 1 := by
  refine ⟨by decide, by decide, by decide, by decide⟩

theorem claim_C7_witness :
    Symm dagChain ∧
    Symm (dagChain.create_branch "x").1 ∧
    Symm (addEdgeCore dagChain 3 1) ∧
    Symm dagC1After :=
  ⟨by decide,
   (claim_C7_symmetry_preservation dagChain (by decide)).1 "x" (by decide) (by decide),
   (claim_C7_symmetry_preservation dagChain (by decide)).2.1 3 1
     (addEdgeCore dagChain 3 1) (by rfl),
   (claim_C7_symmetry_preservation dagChain (by decide)).2.2.2 oracleC1 2 [] []
     dagC1After [] [2] [.originCheck "B", .rebaseAttempt "B" "A", .ancestorCheck "A" "B"]
     (by decide) (by rfl)⟩

/-! ## Claim C3 / C10 — Kahn topological sort -/

/-- Well-formedness, the data-model invariants of the spec (section 3):
distinct keys, no dangling adjacency references, parent/child symmetry,
uid fields agreeing with the map keys, and duplicate-free adjacency
lists (parents/children are ordered sets). -/
def WF (g : Dag) : Prop :=
  g.keys.Nodup ∧ Closed g ∧ Symm g ∧
  (∀ kv ∈ g.branches, kv.2.uid = kv.1) ∧
  (∀ kv ∈ g.branches, kv.2.parents.Nodup ∧ kv.2.children.Nodup)

instance WF.dec (g : Dag) : Decidable (WF g) := by
  unfold WF
  infer_instance

/-- The dependency-edge relation of the stored graph: `p` is a declared
parent of `c`. -/
def parentEdge (g : Dag) (p c : Nat) : Prop :=
  ∃ b, g.getBranch c = some b ∧ p ∈ b.parents

/-- A cycle in the parent relation. -/
def hasCycle (g : Dag) : Prop :=
  ∃ v, Relation.TransGen (parentEdge g) v v

theorem parentEdge_iff (g : Dag) (p c : Nat) :
    parentEdge g p c ↔ p ∈ g.parentsOf c := by
  unfold parentEdge Dag.parentsOf
  cases hb : g.getBranch c with
  | none =>
    constructor
    · rintro ⟨b, hb2, _⟩
      exact Option.noConfusion hb2
    · intro h
      exact absurd h (List.not_mem_nil p)
  | some b =>
    constructor
    · rintro ⟨b2, hb2, hp⟩
      injection hb2 with hb2
      show p ∈ b.parents
      rw [hb2]
      exact hp
    · intro h
      exact ⟨b, rfl, h⟩

instance parentEdge.dec (g : Dag) (p c : Nat) : Decidable (parentEdge g p c) :=
  decidable_of_iff _ (parentEdge_iff g p c).symm

theorem parentEdge_key (g : Dag) (p c : Nat) (h : parentEdge g p c) : c ∈ g.keys := by
  obtain ⟨b, hb, _⟩ := h
  show c ∈ g.branches.map Prod.fst
  rw [← alookup_isSome_iff_mem_keys]
  unfold Dag.getBranch at hb
  rw [hb]
  rfl

/-- A duplicate-free list contained in another list is no longer. -/
theorem nodup_subset_length (l K : List Nat) (hnd : l.Nodup)
    (hsub : ∀ v ∈ l, v ∈ K) : l.length ≤ K.length := by
  have h1 : l.toFinset.card = l.length := List.toFinset_card_of_nodup hnd
  have h2 : l.toFinset ⊆ K.toFinset := by
    intro x hx
    rw [List.mem_toFinset] at hx ⊢
    exact hsub x hx
  have h3 := Finset.card_le_card h2
  have h4 := K.toFinset_card_le
  omega

theorem nodup_concat {l : List Nat} {x : Nat} (hnd : l.Nodup) (hx : x ∉ l) :
    (l ++ [x]).Nodup := by
  rw [List.nodup_append]
  refine ⟨hnd, List.nodup_singleton x, ?_⟩
  intro a ha hb
  rw [List.mem_singleton] at hb
  rw [hb] at ha
  exact hx ha

theorem mem_take_exists_get {l : List Nat} {j p : Nat} (h : p ∈ l.take j) :
    ∃ i, ∃ hi : i < l.length, i < j ∧ l.get ⟨i, hi⟩ = p := by
  induction l generalizing j with
  | nil =>
    rw [List.take_nil] at h
    exact absurd h (List.not_mem_nil p)
  | cons a l ih =>
    cases j with
    | zero =>
      exact absurd h (List.not_mem_nil p)
    | succ j =>
      rw [List.take_succ_cons] at h
      rcases List.mem_cons.mp h with h1 | h1
      · exact ⟨0, Nat.succ_pos _, Nat.succ_pos _, h1.symm⟩
      · obtain ⟨i, hi, hij, hget⟩ := ih h1
        exact ⟨i + 1, Nat.succ_lt_succ hi, Nat.succ_lt_succ hij, hget⟩

theorem get_concat_last (l : List Nat) (x : Nat) (h : l.length < (l ++ [x]).length) :
    (l ++ [x]).get ⟨l.length, h⟩ = x := by
  induction l with
  | nil => rfl
  | cons a l ih => exact ih (by simp)

/-- If a list has no duplicates, is nonempty and all its elements equal
`x`, it has exactly one element. -/
theorem length_one_of_all_eq {l : List Nat} {x : Nat} (hnd : l.Nodup)
    (hne : l ≠ []) (hall : ∀ y ∈ l, y = x) : l.length = 1 := by
  cases l with
  | nil => exact absurd rfl hne
  | cons a t =>
    cases t with
    | nil => rfl
    | cons b t2 =>
      have ha : a = x := hall a (List.mem_cons_self a _)
      have hb : b = x := hall b (List.mem_cons.mpr (Or.inr (List.mem_cons_self b _)))
      rw [List.nodup_cons] at hnd
      exact absurd (List.mem_cons.mpr (Or.inl (by rw [ha, hb])))
        hnd.1

/-- The not-yet-emitted entries of a list (the pending in-degree
contributions of a parents list during Kahn`s algorithm). -/
def filterPend (l res : List Nat) : List Nat :=
  l.filter (fun p => decide (p ∉ res))

/-- The parents of `b` not yet emitted into `res`. -/
def pendingParents (b : Branch) (res : List Nat) : List Nat :=
  filterPend b.parents res

theorem filterPend_nil : filterPend [] res = [] := rfl

theorem filterPend_cons (a : Nat) (l res : List Nat) :
    filterPend (a :: l) res =
      if a ∈ res then filterPend l res else a :: filterPend l res := by
  by_cases h : a ∈ res
  · simp [filterPend, List.filter_cons, h]
  · simp [filterPend, List.filter_cons, h]

theorem filterPend_mem {l res : List Nat} {p : Nat} :
    p ∈ filterPend l res ↔ p ∈ l ∧ p ∉ res := by
  simp [filterPend, List.mem_filter]

theorem filterPend_nodup {l res : List Nat} (h : l.Nodup) :
    (filterPend l res).Nodup :=
  h.filter _

theorem filterPend_res_nil (l : List Nat) : filterPend l [] = l := by
  simp [filterPend]

theorem filterPend_nil_iff {l res : List Nat} :
    filterPend l res = [] ↔ ∀ p ∈ l, p ∈ res := by
  constructor
  · intro h p hp
    by_contra hpr
    have hm : p ∈ filterPend l res := filterPend_mem.mpr ⟨hp, hpr⟩
    rw [h] at hm
    exact absurd hm (List.not_mem_nil p)
  · intro h
    rw [List.eq_nil_iff_forall_not_mem]
    intro p hp
    obtain ⟨hl, hr⟩ := filterPend_mem.mp hp
    exact hr (h p hl)

theorem filterPend_mono {l res : List Nat} {x : Nat}
    (h : filterPend l res = []) : filterPend l (res ++ [x]) = [] := by
  rw [filterPend_nil_iff] at h ⊢
  intro p hp
  exact List.mem_append_left _ (h p hp)

theorem filterPend_not_mem {l res : List Nat} {x : Nat} (hx : x ∉ l) :
    filterPend l (res ++ [x]) = filterPend l res := by
  induction l with
  | nil => rfl
  | cons a l ih =>
    have hax : a ≠ x := fun h => hx (h ▸ List.mem_cons_self a l)
    have hxl : x ∉ l := fun h => hx (List.mem_cons.mpr (Or.inr h))
    rw [filterPend_cons, filterPend_cons]
    by_cases h : a ∈ res
    · rw [if_pos h, if_pos (List.mem_append_left _ h), ih hxl]
    · have h2 : a ∉ res ++ [x] := by
        rw [List.mem_append, List.mem_singleton]
        rintro (h3 | h3)
        · exact h h3
        · exact hax h3
      rw [if_neg h, if_neg h2, ih hxl]

theorem filterPend_succ {l res : List Nat} {x : Nat} (hnd : l.Nodup)
    (hx : x ∈ l) (hxr : x ∉ res) :
    (filterPend l res).length = (filterPend l (res ++ [x])).length + 1 := by
  induction l with
  | nil => exact absurd hx (List.not_mem_nil x)
  | cons a l ih =>
    rw [List.nodup_cons] at hnd
    rcases List.mem_cons.mp hx with h1 | h1
    · subst h1
      rw [filterPend_cons, filterPend_cons,
        if_neg hxr, if_pos (List.mem_append_right _ (List.mem_singleton_self x)),
        filterPend_not_mem hnd.1]
      simp
    · have hax : a ≠ x := fun h => hnd.1 (h ▸ h1)
      rw [filterPend_cons, filterPend_cons]
      by_cases h : a ∈ res
      · rw [if_pos h, if_pos (List.mem_append_left _ h)]
        exact ih hnd.2 h1
      · have h2 : a ∉ res ++ [x] := by
          rw [List.mem_append, List.mem_singleton]
          rintro (h3 | h3)
          · exact h h3
          · exact hax h3
        rw [if_neg h, if_neg h2]
        simp only [List.length_cons]
        rw [ih hnd.2 h1]

/-- A graph admitting a rank function that strictly increases along
parent edges has no cycle. -/
theorem acyclic_of_rank (g : Dag) (r : Nat → Nat)
    (h : ∀ p c, parentEdge g p c → r p < r c) : ¬ hasCycle g := by
  rintro ⟨v, hv⟩
  have key : ∀ a b, Relation.TransGen (parentEdge g) a b → r a < r b := by
    intro a b htg
    induction htg with
    | single h1 => exact h _ _ h1
    | tail _ h1 ih => exact lt_trans ih (h _ _ h1)
  exact lt_irrefl (r v) (key v v hv)

/-- A computable choice of an in-`S` parent (used only in proofs). -/
def pickParent (g : Dag) (S : List Nat) (v : Nat) : Nat :=
  (S.find? (fun p => decide (p ∈ g.parentsOf v))).getD v

/-- Iterate `pickParent` from a start node. -/
def chaseFrom (g : Dag) (S : List Nat) (v : Nat) : Nat → Nat
  | 0 => v
  | n + 1 => pickParent g S (chaseFrom g S v n)

theorem pickParent_spec (g : Dag) (S : List Nat) (v : Nat)
    (h : ∃ p, p ∈ S ∧ parentEdge g p v) :
    pickParent g S v ∈ S ∧ parentEdge g (pickParent g S v) v := by
  obtain ⟨p, hp, he⟩ := h
  unfold pickParent
  cases hfind : S.find? (fun p => decide (p ∈ g.parentsOf v)) with
  | none =>
    exfalso
    have h2 := List.find?_eq_none.mp hfind p hp
    rw [parentEdge_iff] at he
    simp at h2
    exact h2 he
  | some q =>
    have hq := List.find?_some hfind
    have hqS := List.mem_of_find?_eq_some hfind
    simp at hq
    simp only [Option.getD_some]
    exact ⟨hqS, (parentEdge_iff g q v).mpr hq⟩

/-- If every member of a nonempty set of nodes has a declared parent in
the same set, the parent relation has a cycle (pigeonhole over a walk of
length one more than the size of the set). -/
theorem hasCycle_of_stuck (g : Dag) (S : List Nat) (hne : S ≠ [])
    (hstep : ∀ v ∈ S, ∃ p, p ∈ S ∧ parentEdge g p v) : hasCycle g := by
  obtain ⟨v0, hv0⟩ : ∃ v, v ∈ S := by
    cases S with
    | nil => exact absurd rfl hne
    | cons a t => exact ⟨a, List.mem_cons_self a t⟩
  have huS : ∀ n, chaseFrom g S v0 n ∈ S := by
    intro n
    induction n with
    | zero => exact hv0
    | succ n ih =>
      exact (pickParent_spec g S (chaseFrom g S v0 n) (hstep _ ih)).1
  have huE : ∀ n, parentEdge g (chaseFrom g S v0 (n + 1)) (chaseFrom g S v0 n) :=
    fun n => (pickParent_spec g S (chaseFrom g S v0 n) (hstep _ (huS n))).2
  have chain : ∀ d n, Relation.TransGen (parentEdge g)
      (chaseFrom g S v0 (n + d + 1)) (chaseFrom g S v0 n) := by
    intro d
    induction d with
    | zero => exact fun n => Relation.TransGen.single (huE n)
    | succ d ih =>
      intro n
      exact Relation.TransGen.head (huE (n + d + 1)) (ih n)
  have hcard : S.toFinset.card < Fintype.card (Fin (S.length + 1)) := by
    rw [Fintype.card_fin]
    exact Nat.lt_succ_of_le S.toFinset_card_le
  obtain ⟨i, _, j, _, hij, heq⟩ :=
    Finset.exists_ne_map_eq_of_card_lt_of_maps_to
      (show S.toFinset.card < (Finset.univ : Finset (Fin (S.length + 1))).card by
        rw [Finset.card_univ]; exact hcard)
      (fun (i : Fin (S.length + 1)) _ => List.mem_toFinset.mpr (huS i.1))
  have key : ∀ a b : Fin (S.length + 1), a.1 < b.1 →
      chaseFrom g S v0 a.1 = chaseFrom g S v0 b.1 → hasCycle g := by
    intro a b hlt he
    have harith : a.1 + (b.1 - a.1 - 1) + 1 = b.1 := by omega
    have hc := chain (b.1 - a.1 - 1) a.1
    rw [harith] at hc
    rw [← he] at hc
    exact ⟨chaseFrom g S v0 a.1, hc⟩
  rcases lt_or_gt_of_ne hij with h | h
  · exact key i j h heq
  · exact key j i h heq.symm

/-- Kahn push test: the stored in-degree of `c` reaches zero after one
decrement. -/
def pushTest (inDeg : List (Nat × Nat)) (c : Nat) : Bool :=
  match alookup c inDeg with
  | some d => d - 1 = 0
  | none => false

theorem processChild_none {inDeg : List (Nat × Nat)} {queue : List Nat} {c : Nat}
    (h : alookup c inDeg = none) : processChild inDeg queue c = (inDeg, queue) := by
  unfold processChild
  rw [h]

theorem processChild_some {inDeg : List (Nat × Nat)} {queue : List Nat} {c d : Nat}
    (h : alookup c inDeg = some d) :
    processChild inDeg queue c =
      (inDeg.map (fun kv => if kv.1 = c then (kv.1, kv.2 - 1) else kv),
       if d - 1 = 0 then queue ++ [c] else queue) := by
  unfold processChild
  rw [h]

theorem processChildren_cons (c : Nat) (cs : List Nat) (inDeg : List (Nat × Nat))
    (queue : List Nat) :
    processChildren (c :: cs) inDeg queue =
      processChildren cs (processChild inDeg queue c).1 (processChild inDeg queue c).2 :=
  rfl

/-- Keys survive a value-only map. -/
theorem mapIf_keys {α : Type} (l : List (Nat × α)) (c : Nat) (f : α → α) :
    (l.map (fun kv => if kv.1 = c then (kv.1, f kv.2) else kv)).map Prod.fst =
      l.map Prod.fst := by
  induction l with
  | nil => rfl
  | cons kv l ih =>
    by_cases h : kv.1 = c
    · simp only [List.map_cons, if_pos h, ih]
    · simp only [List.map_cons, if_neg h, ih]

theorem alookup_map_snd {α β : Type} (l : List (Nat × α)) (f : α → β) (k : Nat) :
    alookup k (l.map (fun kv => (kv.1, f kv.2))) = (alookup k l).map f := by
  induction l with
  | nil => rfl
  | cons kv l ih =>
    by_cases h : kv.1 = k
    · simp only [List.map_cons, alookup, if_pos h]
      rfl
    · simp only [List.map_cons, alookup, if_neg h, ih]

/-- Dropping an absent head from the membership test of a decrement
function. -/
theorem mapFun_cons_ne {v c : Nat} (cs : List Nat) (hvc : v ≠ c) :
    (fun d : Nat => if v ∈ c :: cs then d - 1 else d) =
      (fun d : Nat => if v ∈ cs then d - 1 else d) := by
  funext d
  by_cases hv : v ∈ cs
  · rw [if_pos hv, if_pos (List.mem_cons.mpr (Or.inr hv))]
  · rw [if_neg hv, if_neg ?_]
    intro h
    rcases List.mem_cons.mp h with h1 | h1
    · exact hvc h1
    · exact hv h1

/-- Full description of the inner child loop of Kahn`s algorithm: keys of
the in-degree table are unchanged, each processed key present in the
table is decremented once, and exactly the children whose stored degree
reaches zero are appended to the queue, in order. -/
theorem processChildren_spec (cs : List Nat) :
    ∀ (inDeg : List (Nat × Nat)) (queue : List Nat), cs.Nodup →
      (processChildren cs inDeg queue).1.map Prod.fst = inDeg.map Prod.fst ∧
      (∀ v, alookup v (processChildren cs inDeg queue).1 =
        (alookup v inDeg).map (fun d => if v ∈ cs then d - 1 else d)) ∧
      (processChildren cs inDeg queue).2 = queue ++ cs.filter (pushTest inDeg) := by
  induction cs with
  | nil =>
    intro inDeg queue _
    refine ⟨rfl, ?_, by simp [processChildren]⟩
    intro v
    simp [processChildren]
  | cons c cs ih =>
    intro inDeg queue hnd
    rw [List.nodup_cons] at hnd
    cases halook : alookup c inDeg with
    | none =>
      rw [processChildren_cons, processChild_none halook]
      obtain ⟨ih1, ih2, ih3⟩ := ih inDeg queue hnd.2
      refine ⟨ih1, ?_, ?_⟩
      · intro v
        rw [ih2 v]
        by_cases hvc : v = c
        · rw [hvc, halook]
          rfl
        · rw [mapFun_cons_ne cs hvc]
      · rw [ih3]
        have hpt : pushTest inDeg c = false := by
          unfold pushTest
          rw [halook]
        rw [List.filter_cons, hpt]
        simp
    | some d =>
      rw [processChildren_cons, processChild_some halook]
      obtain ⟨ih1, ih2, ih3⟩ := ih
        (inDeg.map (fun kv => if kv.1 = c then (kv.1, kv.2 - 1) else kv))
        (if d - 1 = 0 then queue ++ [c] else queue) hnd.2
      have hkeys : (inDeg.map (fun kv => if kv.1 = c then (kv.1, kv.2 - 1) else kv)).map
          Prod.fst = inDeg.map Prod.fst := mapIf_keys inDeg c (fun d => d - 1)
      have hlook : ∀ v, alookup v (inDeg.map
          (fun kv => if kv.1 = c then (kv.1, kv.2 - 1) else kv)) =
          if v = c then (alookup v inDeg).map (fun d => d - 1) else alookup v inDeg :=
        fun v => alookup_map_if inDeg c v (fun d => d - 1)
      refine ⟨by rw [ih1, hkeys], ?_, ?_⟩
      · intro v
        rw [ih2 v, hlook v]
        by_cases hvc : v = c
        · rw [if_pos hvc, hvc, halook]
          simp [hnd.1]
        · rw [if_neg hvc, mapFun_cons_ne cs hvc]
      · rw [ih3]
        have hfcongr : cs.filter (pushTest (inDeg.map
            (fun kv => if kv.1 = c then (kv.1, kv.2 - 1) else kv))) =
            cs.filter (pushTest inDeg) := by
          apply List.filter_congr
          intro a ha
          have hac : a ≠ c := fun h => hnd.1 (h ▸ ha)
          unfold pushTest
          rw [hlook a, if_neg hac]
        rw [hfcongr]
        have hpt : pushTest inDeg c = (decide (d - 1 = 0)) := by
          unfold pushTest
          rw [halook]
        rw [List.filter_cons, hpt]
        by_cases hd : d - 1 = 0
        · rw [if_pos hd]
          simp only [hd, decide_True]
          rw [List.append_assoc]
          rfl
        · rw [if_neg hd]
          simp only [hd, decide_False]
          rfl

theorem pendingParents_mono {b : Branch} {res : List Nat} {x : Nat}
    (h : pendingParents b res = []) : pendingParents b (res ++ [x]) = [] :=
  filterPend_mono h

theorem pendingParents_not_mem {b : Branch} {res : List Nat} {x : Nat}
    (hx : x ∉ b.parents) : pendingParents b (res ++ [x]) = pendingParents b res :=
  filterPend_not_mem hx

theorem pendingParents_succ {b : Branch} {res : List Nat} {x : Nat}
    (hnd : b.parents.Nodup) (hx : x ∈ b.parents) (hxr : x ∉ res) :
    (pendingParents b res).length = (pendingParents b (res ++ [x])).length + 1 :=
  filterPend_succ hnd hx hxr

theorem pendingParents_mem {b : Branch} {res : List Nat} {p : Nat} :
    p ∈ pendingParents b res ↔ p ∈ b.parents ∧ p ∉ res :=
  filterPend_mem

theorem pendingParents_nil_iff {b : Branch} {res : List Nat} :
    pendingParents b res = [] ↔ ∀ p ∈ b.parents, p ∈ res :=
  filterPend_nil_iff

theorem pendingParents_nodup {b : Branch} {res : List Nat}
    (h : b.parents.Nodup) : (pendingParents b res).Nodup :=
  filterPend_nodup h

theorem getBranch_isSome_of_mem_keys (g : Dag) (v : Nat) (h : v ∈ g.keys) :
    ∃ b, g.getBranch v = some b := by
  have h2 : (alookup v g.branches).isSome = true :=
    (alookup_isSome_iff_mem_keys g.branches v).mpr h
  cases hb : g.getBranch v with
  | none =>
    unfold Dag.getBranch at hb
    rw [hb] at h2
    exact Bool.noConfusion h2
  | some b => exact ⟨b, rfl⟩

theorem symm_children_iff (g : Dag) (hs : Symm g) {cur v : Nat} {bcur bv : Branch}
    (hcur : g.getBranch cur = some bcur) (hv : g.getBranch v = some bv) :
    v ∈ bcur.children ↔ cur ∈ bv.parents :=
  (hs (v, bv) (alookup_mem hv) (cur, bcur) (alookup_mem hcur)).symm

theorem get_append_left (l1 l2 : List Nat) (i : Nat) (h1 : i < l1.length)
    (h : i < (l1 ++ l2).length) : (l1 ++ l2).get ⟨i, h⟩ = l1.get ⟨i, h1⟩ := by
  induction l1 generalizing i with
  | nil => exact absurd h1 (by simp)
  | cons a l ih =>
    cases i with
    | zero => rfl
    | succ i => exact ih i (Nat.lt_of_succ_lt_succ h1) _

theorem take_append_le (l1 l2 : List Nat) (i : Nat) (h : i ≤ l1.length) :
    (l1 ++ l2).take i = l1.take i := by
  induction l1 generalizing i with
  | nil =>
    cases i with
    | zero => rfl
    | succ i => exact absurd h (by simp)
  | cons a l ih =>
    cases i with
    | zero => rfl
    | succ i =>
      rw [List.cons_append, List.take_succ_cons, List.take_succ_cons,
        ih i (Nat.le_of_succ_le_succ h)]

/-- The loop invariant of Kahn`s algorithm as implemented by
`topological_sort`: `result` is the emitted prefix, `queue` the pending
zero-in-degree nodes, `inDeg` the stored in-degree table. -/
structure TopoInv (g : Dag) (queue : List Nat) (inDeg : List (Nat × Nat))
    (result : List Nat) : Prop where
  res_nd : result.Nodup
  res_sub : ∀ v ∈ result, v ∈ g.keys
  q_nd : queue.Nodup
  q_sub : ∀ v ∈ queue, v ∈ g.keys
  q_fresh : ∀ v ∈ queue, v ∉ result
  deg_keys : inDeg.map Prod.fst = g.keys
  deg_val : ∀ v b, g.getBranch v = some b →
    alookup v inDeg = some (pendingParents b result).length
  q_zero : ∀ v b, g.getBranch v = some b → v ∈ queue → pendingParents b result = []
  res_zero : ∀ v b, g.getBranch v = some b → v ∈ result → pendingParents b result = []
  ready : ∀ v b, g.getBranch v = some b → v ∉ result → pendingParents b result = [] →
    v ∈ queue
  ord : ∀ i (hi : i < result.length), ∀ p,
    parentEdge g p (result.get ⟨i, hi⟩) → p ∈ result.take i

/-- What holds of the list the loop finally returns. -/
def TopoOut (g : Dag) (final : List Nat) : Prop :=
  final.Nodup ∧ (∀ v ∈ final, v ∈ g.keys) ∧
  (∀ i (hi : i < final.length), ∀ p,
    parentEdge g p (final.get ⟨i, hi⟩) → p ∈ final.take i) ∧
  (∀ v b, g.getBranch v = some b → v ∉ final → ∃ p, p ∈ b.parents ∧ p ∉ final)

theorem topoLoop_nilq (g : Dag) (fuel : Nat) (inDeg : List (Nat × Nat))
    (result : List Nat) : topoLoop g (fuel + 1) [] inDeg result = result :=
  rfl

theorem topoLoop_cons (g : Dag) (fuel cur : Nat) (rest : List Nat)
    (inDeg : List (Nat × Nat)) (result : List Nat) :
    topoLoop g (fuel + 1) (cur :: rest) inDeg result =
      match g.getBranch cur with
      | none => topoLoop g fuel rest inDeg (result ++ [cur])
      | some br => topoLoop g fuel (processChildren br.children inDeg rest).2
          (processChildren br.children inDeg rest).1 (result ++ [cur]) :=
  rfl

theorem topoLoop_spec (g : Dag) (hwf : WF g) :
    ∀ (fuel : Nat) (queue : List Nat) (inDeg : List (Nat × Nat)) (result : List Nat),
      TopoInv g queue inDeg result →
      g.keys.length + 1 ≤ fuel + result.length →
      TopoOut g (topoLoop g fuel queue inDeg result) := by
  intro fuel
  induction fuel with
  | zero =>
    intro queue inDeg result hinv hfuel
    exfalso
    have hle := nodup_subset_length result g.keys hinv.res_nd hinv.res_sub
    omega
  | succ fuel ih =>
    intro queue inDeg result hinv hfuel
    cases queue with
    | nil =>
      rw [topoLoop_nilq]
      refine ⟨hinv.res_nd, hinv.res_sub, hinv.ord, ?_⟩
      intro v b hv hvr
      cases hpp : pendingParents b result with
      | nil => exact absurd (hinv.ready v b hv hvr hpp) (List.not_mem_nil v)
      | cons a t =>
        have ha : a ∈ pendingParents b result := by
          rw [hpp]
          exact List.mem_cons_self a t
        obtain ⟨h1, h2⟩ := pendingParents_mem.mp ha
        exact ⟨a, h1, h2⟩
    | cons cur rest =>
      have hK := hwf.1
      have hClosed := hwf.2.1
      have hSymm := hwf.2.2.1
      have hAdj := hwf.2.2.2.2
      have hcurK : cur ∈ g.keys := hinv.q_sub cur (List.mem_cons_self cur rest)
      obtain ⟨bcur, hbcur⟩ := getBranch_isSome_of_mem_keys g cur hcurK
      have hcsnd : bcur.children.Nodup := (hAdj (cur, bcur) (alookup_mem hbcur)).2
      have hcur_fresh : cur ∉ result := hinv.q_fresh cur (List.mem_cons_self cur rest)
      have hcur_pend : pendingParents bcur result = [] :=
        hinv.q_zero cur bcur hbcur (List.mem_cons_self cur rest)
      have hrest_nd : rest.Nodup := (List.nodup_cons.mp hinv.q_nd).2
      have hcur_rest : cur ∉ rest := (List.nodup_cons.mp hinv.q_nd).1
      have hchild_iff : ∀ v bv, g.getBranch v = some bv →
          (v ∈ bcur.children ↔ cur ∈ bv.parents) :=
        fun v bv hv => symm_children_iff g hSymm hbcur hv
      have hcs_tracked : ∀ x ∈ bcur.children, x ∈ g.keys :=
        fun x hx => (hClosed (cur, bcur) (alookup_mem hbcur)).2 x hx
      have hpush : ∀ x, x ∈ bcur.children.filter (pushTest inDeg) →
          ∃ bx, g.getBranch x = some bx ∧ x ∈ bcur.children ∧
            (pendingParents bx result).length = 1 := by
        intro x hx
        obtain ⟨hxc, hxt⟩ := List.mem_filter.mp hx
        obtain ⟨bx, hbx⟩ := getBranch_isSome_of_mem_keys g x (hcs_tracked x hxc)
        refine ⟨bx, hbx, hxc, ?_⟩
        simp only [pushTest, hinv.deg_val x bx hbx] at hxt
        simp at hxt
        have hcurp : cur ∈ bx.parents := (hchild_iff x bx hbx).mp hxc
        have hmem : cur ∈ pendingParents bx result :=
          pendingParents_mem.mpr ⟨hcurp, hcur_fresh⟩
        have hpos : 0 < (pendingParents bx result).length := List.length_pos_of_mem hmem
        omega
      simp only [topoLoop_cons, hbcur]
      obtain ⟨hkeys2, hvals2, hq2⟩ := processChildren_spec bcur.children inDeg rest hcsnd
      refine ih _ _ _ ⟨?_, ?_, ?_, ?_, ?_, ?_, ?_, ?_, ?_, ?_, ?_⟩ ?_
      · exact nodup_concat hinv.res_nd hcur_fresh
      · intro v hv
        rcases List.mem_append.mp hv with h | h
        · exact hinv.res_sub v h
        · rw [List.mem_singleton] at h
          rw [h]
          exact hcurK
      · rw [hq2, List.nodup_append]
        refine ⟨hrest_nd, List.Nodup.filter _ hcsnd, ?_⟩
        intro a ha hb
        obtain ⟨bx, hbx, _, hlen1⟩ := hpush a hb
        have hzero := hinv.q_zero a bx hbx (List.mem_cons.mpr (Or.inr ha))
        rw [hzero] at hlen1
        simp at hlen1
      · rw [hq2]
        intro v hv
        rcases List.mem_append.mp hv with h | h
        · exact hinv.q_sub v (List.mem_cons.mpr (Or.inr h))
        · exact hcs_tracked v (List.mem_filter.mp h).1
      · rw [hq2]
        intro v hv hvr
        rcases List.mem_append.mp hv with h | h
        · rcases List.mem_append.mp hvr with h2 | h2
          · exact hinv.q_fresh v (List.mem_cons.mpr (Or.inr h)) h2
          · rw [List.mem_singleton] at h2
            rw [h2] at h
            exact hcur_rest h
        · obtain ⟨bx, hbx, _, hlen1⟩ := hpush v h
          rcases List.mem_append.mp hvr with h2 | h2
          · have hzero := hinv.res_zero v bx hbx h2
            rw [hzero] at hlen1
            simp at hlen1
          · rw [List.mem_singleton] at h2
            rw [h2] at hbx
            rw [hbcur] at hbx
            injection hbx with h3
            rw [h3] at hcur_pend
            rw [hcur_pend] at hlen1
            simp at hlen1
      · rw [hkeys2]
        exact hinv.deg_keys
      · intro v b hv
        rw [hvals2 v, hinv.deg_val v b hv]
        simp only [Option.map_some']
        by_cases hvc : v ∈ bcur.children
        · rw [if_pos hvc]
          have hcurp : cur ∈ b.parents := (hchild_iff v b hv).mp hvc
          have hbnd : b.parents.Nodup := (hAdj (v, b) (alookup_mem hv)).1
          have hs := pendingParents_succ hbnd hcurp hcur_fresh
          exact congrArg some (by omega)
        · rw [if_neg hvc]
          have hcurp : cur ∉ b.parents := fun h => hvc ((hchild_iff v b hv).mpr h)
          rw [pendingParents_not_mem hcurp]
      · intro v b hv hvq
        rw [hq2] at hvq
        rcases List.mem_append.mp hvq with h | h
        · exact pendingParents_mono (hinv.q_zero v b hv (List.mem_cons.mpr (Or.inr h)))
        · obtain ⟨bx, hbx, hxc, hlen1⟩ := hpush v h
          have hbe : bx = b := by
            rw [hv] at hbx
            exact (Option.some.inj hbx).symm
          rw [hbe] at hlen1
          have hcurp : cur ∈ b.parents := (hchild_iff v b hv).mp hxc
          have hbnd : b.parents.Nodup := (hAdj (v, b) (alookup_mem hv)).1
          have hs := pendingParents_succ hbnd hcurp hcur_fresh
          have hz : (pendingParents b (result ++ [cur])).length = 0 := by omega
          exact List.length_eq_zero.mp hz
      · intro v b hv hvr
        rcases List.mem_append.mp hvr with h | h
        · exact pendingParents_mono (hinv.res_zero v b hv h)
        · rw [List.mem_singleton] at h
          subst h
          rw [hbcur] at hv
          injection hv with h3
          rw [h3] at hcur_pend
          exact pendingParents_mono hcur_pend
      · intro v b hv hvnr hpnew
        have hvr : v ∉ result := fun h => hvnr (List.mem_append_left _ h)
        have hvcur : v ≠ cur := by
          intro h
          exact hvnr (List.mem_append_right _ (by rw [h]; exact List.mem_singleton_self cur))
        by_cases hold : pendingParents b result = []
        · have hvq := hinv.ready v b hv hvr hold
          rcases List.mem_cons.mp hvq with h | h
          · exact absurd h hvcur
          · rw [hq2]
            exact List.mem_append_left _ h
        · have hall : ∀ p ∈ pendingParents b result, p = cur := by
            intro p hp
            obtain ⟨hpb, hpr⟩ := pendingParents_mem.mp hp
            have hpin : p ∈ result ++ [cur] := by
              by_contra hpc
              have hm : p ∈ pendingParents b (result ++ [cur]) :=
                pendingParents_mem.mpr ⟨hpb, hpc⟩
              rw [hpnew] at hm
              exact List.not_mem_nil p hm
            rcases List.mem_append.mp hpin with h | h
            · exact absurd h hpr
            · exact List.mem_singleton.mp h
          have hbnd : b.parents.Nodup := (hAdj (v, b) (alookup_mem hv)).1
          have hlen1 : (pendingParents b result).length = 1 :=
            length_one_of_all_eq (pendingParents_nodup hbnd) hold hall
          have hcurp : cur ∈ b.parents := by
            cases hpp : pendingParents b result with
            | nil => exact absurd hpp hold
            | cons a t =>
              have ha : a ∈ pendingParents b result := by
                rw [hpp]
                exact List.mem_cons_self a t
              have h5 := (pendingParents_mem.mp ha).1
              rw [hall a ha] at h5
              exact h5
          have hvcs : v ∈ bcur.children := (hchild_iff v b hv).mpr hcurp
          rw [hq2]
          apply List.mem_append_right
          rw [List.mem_filter]
          refine ⟨hvcs, ?_⟩
          simp only [pushTest, hinv.deg_val v b hv]
          rw [hlen1]
          rfl
      · intro i hi p hedge
        have hlen : (result ++ [cur]).length = result.length + 1 := by
          rw [List.length_append]
          rfl
        by_cases hil : i < result.length
        · rw [get_append_left result [cur] i hil hi] at hedge
          have hp := hinv.ord i hil p hedge
          rw [take_append_le result [cur] i (Nat.le_of_lt hil)]
          exact hp
        · have hieq : i = result.length := by omega
          subst hieq
          rw [get_concat_last result cur hi] at hedge
          obtain ⟨b2, hb2, hpb⟩ := hedge
          rw [hbcur] at hb2
          injection hb2 with h3
          rw [← h3] at hpb
          have hpres : p ∈ result := pendingParents_nil_iff.mp hcur_pend p hpb
          rw [take_append_le result [cur] result.length (Nat.le_refl _), List.take_length]
          exact hpres
      · rw [List.length_append]
        simp only [List.length_singleton]
        omega

theorem map_pair_fst {α β : Type} (l : List (Nat × α)) (f : Nat × α → β) :
    (l.map (fun kv => (kv.1, f kv))).map Prod.fst = l.map Prod.fst := by
  induction l with
  | nil => rfl
  | cons kv l ih => simp only [List.map_cons, ih]

/-- The state `topological_sort` hands to its while loop satisfies the
loop invariant. -/
theorem topoInv_init (g : Dag) (hwf : WF g) :
    TopoInv g ((g.branches.filter (fun kv => kv.2.parents.isEmpty)).map Prod.fst)
      (g.branches.map (fun kv => (kv.1, kv.2.parents.length))) [] := by
  refine ⟨List.nodup_nil, ?_, ?_, ?_, ?_, ?_, ?_, ?_, ?_, ?_, ?_⟩
  · intro v hv
    exact absurd hv (List.not_mem_nil v)
  · exact List.Nodup.sublist
      (List.Sublist.map Prod.fst (List.filter_sublist g.branches)) hwf.1
  · intro v hv
    simp only [List.mem_map] at hv
    obtain ⟨kv, hkv, hfst⟩ := hv
    have hmem := (List.mem_filter.mp hkv).1
    show v ∈ g.branches.map Prod.fst
    rw [← hfst]
    exact List.mem_map_of_mem Prod.fst hmem
  · intro v _
    exact List.not_mem_nil v
  · show _ = g.branches.map Prod.fst
    exact map_pair_fst g.branches (fun kv => kv.2.parents.length)
  · intro v b hv
    rw [alookup_map_snd g.branches (fun b => b.parents.length) v]
    unfold Dag.getBranch at hv
    rw [hv]
    rw [show pendingParents b [] = b.parents from filterPend_res_nil b.parents]
    rfl
  · intro v b hv hvq
    simp only [List.mem_map] at hvq
    obtain ⟨kv, hkv, hfst⟩ := hvq
    obtain ⟨hmem, hempty⟩ := List.mem_filter.mp hkv
    have hmem2 : (v, kv.2) ∈ g.branches := by
      rw [← hfst, Prod.mk.eta]
      exact hmem
    have halk : alookup v g.branches = some kv.2 := alookup_eq_some_of_mem hwf.1 hmem2
    unfold Dag.getBranch at hv
    rw [halk] at hv
    injection hv with hv
    rw [show pendingParents b [] = b.parents from filterPend_res_nil b.parents, ← hv]
    cases hpp : kv.2.parents with
    | nil => rfl
    | cons a t =>
      rw [hpp] at hempty
      exact Bool.noConfusion hempty
  · intro v b hv hvr
    exact absurd hvr (List.not_mem_nil v)
  · intro v b hv hvnr hpend
    rw [show pendingParents b [] = b.parents from filterPend_res_nil b.parents] at hpend
    have hmem : (v, b) ∈ g.branches := alookup_mem hv
    simp only [List.mem_map]
    refine ⟨(v, b), List.mem_filter.mpr ⟨hmem, ?_⟩, rfl⟩
    show b.parents.isEmpty = true
    rw [hpend]
    rfl
  · intro i hi
    exact absurd hi (Nat.not_lt_zero i)

theorem topological_sort_eq (g : Dag) :
    g.topological_sort =
      if (topoLoop g (g.branches.length + 1)
            ((g.branches.filter (fun kv => kv.2.parents.isEmpty)).map Prod.fst)
            (g.branches.map (fun kv => (kv.1, kv.2.parents.length))) []).length
          = g.branches.length
      then Except.ok (topoLoop g (g.branches.length + 1)
            ((g.branches.filter (fun kv => kv.2.parents.isEmpty)).map Prod.fst)
            (g.branches.map (fun kv => (kv.1, kv.2.parents.length))) [])
      else Except.error cycleErrorMsg :=
  rfl

/-- On a well-formed acyclic graph, `topological_sort` succeeds with a
duplicate-free permutation of the keys in which every declared parent
appears strictly before each of its children. -/
theorem topological_sort_ok (g : Dag) (hwf : WF g) (hnc : ¬ hasCycle g) :
    ∃ l, g.topological_sort = Except.ok l ∧ l.Nodup ∧ (∀ v, v ∈ l ↔ v ∈ g.keys) ∧
      ∀ p c, parentEdge g p c → ∀ i j (hi : i < l.length) (hj : j < l.length),
        l.get ⟨i, hi⟩ = p → l.get ⟨j, hj⟩ = c → i < j := by
  have hkl : g.keys.length = g.branches.length := by
    unfold Dag.keys
    exact List.length_map _ _
  have hout := topoLoop_spec g hwf (g.branches.length + 1) _ _ [] (topoInv_init g hwf)
    (by rw [hkl]; simp)
  set F := topoLoop g (g.branches.length + 1)
      ((g.branches.filter (fun kv => kv.2.parents.isEmpty)).map Prod.fst)
      (g.branches.map (fun kv => (kv.1, kv.2.parents.length))) [] with hF
  unfold TopoOut at hout
  obtain ⟨hnd, hsub, hord, hstuck⟩ := hout
  have hall : ∀ v ∈ g.keys, v ∈ F := by
    by_contra hnall
    push_neg at hnall
    obtain ⟨v0, hv0K, hv0F⟩ := hnall
    apply hnc
    apply hasCycle_of_stuck g (g.keys.filter (fun v => decide (v ∉ F)))
    · intro hS
      have hm : v0 ∈ g.keys.filter (fun v => decide (v ∉ F)) :=
        List.mem_filter.mpr ⟨hv0K, by simp [hv0F]⟩
      rw [hS] at hm
      exact List.not_mem_nil v0 hm
    · intro v hv
      obtain ⟨hvK, hvF⟩ := List.mem_filter.mp hv
      simp at hvF
      obtain ⟨b, hb⟩ := getBranch_isSome_of_mem_keys g v hvK
      obtain ⟨p, hpb, hpF⟩ := hstuck v b hb hvF
      have hpK : p ∈ g.keys := (hwf.2.1 (v, b) (alookup_mem hb)).1 p hpb
      exact ⟨p, List.mem_filter.mpr ⟨hpK, by simp [hpF]⟩, ⟨b, hb, hpb⟩⟩
  have hlenF : F.length = g.branches.length := by
    have h1 := nodup_subset_length F g.keys hnd hsub
    have h2 := nodup_subset_length g.keys F hwf.1 hall
    omega
  refine ⟨F, ?_, hnd, ?_, ?_⟩
  · rw [topological_sort_eq g, ← hF, if_pos hlenF]
  · intro v
    exact ⟨fun h => hsub v h, fun h => hall v h⟩
  · intro p c hpc i j hi hj hgi hgj
    have hpt : p ∈ F.take j := by
      apply hord j hj p
      rw [hgj]
      exact hpc
    obtain ⟨i2, hi2, hij2, hgi2⟩ := mem_take_exists_get hpt
    have hfin : (⟨i, hi⟩ : Fin F.length) = ⟨i2, hi2⟩ := by
      apply (List.Nodup.get_inj_iff hnd).mp
      rw [hgi, hgi2]
    have hval := congrArg Fin.val hfin
    simp at hval
    omega

/-- On a well-formed graph with a cycle in the parent relation,
`topological_sort` emits fewer than all nodes and reports the cycle
error. -/
theorem topological_sort_cycle (g : Dag) (hwf : WF g) (hc : hasCycle g) :
    g.topological_sort = Except.error cycleErrorMsg := by
  have hkl : g.keys.length = g.branches.length := by
    unfold Dag.keys
    exact List.length_map _ _
  have hout := topoLoop_spec g hwf (g.branches.length + 1) _ _ [] (topoInv_init g hwf)
    (by rw [hkl]; simp)
  set F := topoLoop g (g.branches.length + 1)
      ((g.branches.filter (fun kv => kv.2.parents.isEmpty)).map Prod.fst)
      (g.branches.map (fun kv => (kv.1, kv.2.parents.length))) [] with hF
  unfold TopoOut at hout
  obtain ⟨hnd, hsub, hord, _⟩ := hout
  have hne : ¬ F.length = g.branches.length := by
    intro hlen
    have hsubF : F.toFinset ⊆ g.keys.toFinset := by
      intro x hx
      rw [List.mem_toFinset] at hx ⊢
      exact hsub x hx
    have hc1 : F.toFinset.card = F.length := List.toFinset_card_of_nodup hnd
    have hc2 : g.keys.toFinset.card = g.keys.length := List.toFinset_card_of_nodup hwf.1
    have heqF : F.toFinset = g.keys.toFinset :=
      Finset.eq_of_subset_of_card_le hsubF (by omega)
    have hall : ∀ v ∈ g.keys, v ∈ F := by
      intro v hv
      rw [← List.mem_toFinset, ← heqF, List.mem_toFinset] at hv
      exact hv
    have hstepIdx : ∀ p c, parentEdge g p c → c ∈ F →
        p ∈ F ∧ F.indexOf p < F.indexOf c := by
      intro p c h hcF
      have hj : F.indexOf c < F.length := List.indexOf_lt_length.mpr hcF
      have hgetc : F.get ⟨F.indexOf c, hj⟩ = c := List.indexOf_get hj
      have hpt : p ∈ F.take (F.indexOf c) := by
        apply hord _ hj p
        rw [hgetc]
        exact h
      obtain ⟨i2, hi2, hij2, hgi2⟩ := mem_take_exists_get hpt
      have hpF : p ∈ F := by
        rw [← hgi2]
        exact List.get_mem F i2 hi2
      have hip : F.indexOf p < F.length := List.indexOf_lt_length.mpr hpF
      have hfin : (⟨F.indexOf p, hip⟩ : Fin F.length) = ⟨i2, hi2⟩ := by
        apply (List.Nodup.get_inj_iff hnd).mp
        rw [List.indexOf_get hip, hgi2]
      have hval := congrArg Fin.val hfin
      simp at hval
      exact ⟨hpF, by omega⟩
    obtain ⟨v, hv⟩ := hc
    have hvF : v ∈ F := by
      have hex : ∃ w, parentEdge g w v := by
        cases hv with
        | single h => exact ⟨_, h⟩
        | tail _ h => exact ⟨_, h⟩
      obtain ⟨w, hwv⟩ := hex
      exact hall v (parentEdge_key g w v hwv)
    have hmono : ∀ a b2, Relation.TransGen (parentEdge g) a b2 → b2 ∈ F →
        F.indexOf a < F.indexOf b2 := by
      intro a b2 htg
      induction htg with
      | single h => intro hbF; exact (hstepIdx _ _ h hbF).2
      | tail htg2 h ihh =>
        intro hcF
        have hstep2 := hstepIdx _ _ h hcF
        exact lt_trans (ihh hstep2.1) hstep2.2
    have := hmono v v hv hvF
    omega
  rw [topological_sort_eq g, ← hF, if_neg hne]

/-- Claim C3 (amended) — on every well-formed graph (the data-model
invariants: distinct keys, no dangling edge references, parent/child
symmetry, duplicate-free adjacency lists), `topological_sort` returns a
duplicate-free list containing every node exactly once with every
declared parent strictly before each of its children, and it fails, with
the cycle-detected error, exactly when the parent relation has a cycle.
The well-formedness premise is necessary: without symmetry the in-degree
seeding (from parents lists) and the decrements (through children lists)
disagree and the code can report a cycle on an acyclic graph (see the
counterexample). -/
theorem claim_C3_topological_sort (g : Dag) (hwf : WF g) :
    (¬ hasCycle g → ∃ l, g.topological_sort = Except.ok l ∧ l.Nodup ∧
        (∀ v, v ∈ l ↔ v ∈ g.keys) ∧
        (∀ p c, parentEdge g p c → ∀ i j (hi : i < l.length) (hj : j < l.length),
          l.get ⟨i, hi⟩ = p → l.get ⟨j, hj⟩ = c → i < j)) ∧
    (hasCycle g → g.topological_sort = Except.error cycleErrorMsg) :=
  ⟨fun hnc => topological_sort_ok g hwf hnc, fun hc => topological_sort_cycle g hwf hc⟩

/-- C3 counterexample graph: reachable through the public mutation API
(`create_branch` then `insert_branch` of a branch carrying an
unreciprocated parent edge), asymmetric, acyclic. -/
def gAsym : Dag := dagMain.insert_branch brFeat

/-- C3 counterexample — the claim quantifies over every graph, but on an
asymmetric (yet acyclic) graph the sort reports the cycle error: node 2
declares parent 1, node 1 does not list 2 as a child, so the seeded
in-degree of 2 is never decremented. -/
theorem claim_C3_counterexample :
    ¬ Symm gAsym ∧ ¬ hasCycle gAsym ∧
      gAsym.topological_sort = Except.error cycleErrorMsg := by
  refine ⟨by decide, ?_, by rfl⟩
  apply acyclic_of_rank gAsym (fun v => v)
  intro p c h
  have hcK := parentEdge_key gAsym p c h
  rw [show gAsym.keys = [1, 2] from rfl] at hcK
  rw [parentEdge_iff] at h
  rcases List.mem_cons.mp hcK with rfl | hcK2
  · rw [show gAsym.parentsOf 1 = [] from rfl] at h
    exact absurd h (List.not_mem_nil p)
  · rw [List.mem_singleton] at hcK2
    subst hcK2
    rw [show gAsym.parentsOf 2 = [1] from rfl] at h
    rw [List.mem_singleton] at h
    rw [h]
    decide

theorem claim_C3_witness :
    dagChain.topological_sort = Except.ok [1, 2, 3] ∧
    ((¬ hasCycle dagChain → ∃ l, dagChain.topological_sort = Except.ok l ∧ l.Nodup ∧
        (∀ v, v ∈ l ↔ v ∈ dagChain.keys) ∧
        (∀ p c, parentEdge dagChain p c →
          ∀ i j (hi : i < l.length) (hj : j < l.length),
            l.get ⟨i, hi⟩ = p → l.get ⟨j, hj⟩ = c → i < j)) ∧
     (hasCycle dagChain → dagChain.topological_sort = Except.error cycleErrorMsg)) :=
  ⟨rfl, claim_C3_topological_sort dagChain (by decide)⟩

/-- An entrywise predicate survives `modifyBranch` when it survives `f`. -/
theorem entries_pred_modify (g : Dag) (i : Nat) (f : Branch → Branch)
    (P : Nat × Branch → Prop) (hall : ∀ kv ∈ g.branches, P kv)
    (hf : ∀ kv ∈ g.branches, P ((kv.1 : Nat), f kv.2)) :
    ∀ kv ∈ (g.modifyBranch i f).branches, P kv := by
  intro kv hkv
  obtain ⟨kv0, hkv0, hkv0e⟩ := modify_entries g i f kv hkv
  by_cases h : kv0.1 = i
  · rw [hkv0e, if_pos h]
    exact hf kv0 hkv0
  · rw [hkv0e, if_neg h]
    exact hall kv0 hkv0

theorem entries_pred_addEdgeCore (g : Dag) (c p : Nat) (P : Nat × Branch → Prop)
    (hall : ∀ kv ∈ g.branches, P kv)
    (hP : ∀ kv : Nat × Branch, P kv → P ((kv.1 : Nat), addParentTo p kv.2))
    (hC : ∀ kv : Nat × Branch, P kv → P ((kv.1 : Nat), addChildTo c kv.2)) :
    ∀ kv ∈ (addEdgeCore g c p).branches, P kv := by
  unfold addEdgeCore
  apply entries_pred_modify
  · apply entries_pred_modify
    · exact hall
    · intro kv hkv
      exact hP kv (hall kv hkv)
  · intro kv hkv
    apply hC
    exact entries_pred_modify g c (addParentTo p) P hall
      (fun kv2 hkv2 => hP kv2 (hall kv2 hkv2)) kv hkv

theorem addParentTo_nodup {p : Nat} {b : Branch} (h : b.parents.Nodup) :
    (addParentTo p b).parents.Nodup := by
  unfold addParentTo
  by_cases hp : p ∈ b.parents
  · rw [if_pos hp]
    exact h
  · rw [if_neg hp]
    exact nodup_concat h hp

theorem addChildTo_nodup {c : Nat} {b : Branch} (h : b.children.Nodup) :
    (addChildTo c b).children.Nodup := by
  unfold addChildTo
  by_cases hc : c ∈ b.children
  · rw [if_pos hc]
    exact h
  · rw [if_neg hc]
    exact nodup_concat h hc

/-- Adding one edge between two tracked ids preserves well-formedness
(even a self-edge: the adjacency lists stay duplicate-free, closed,
symmetric, uid-consistent). -/
theorem WF_addEdgeCore (g : Dag) (c p : Nat) (hcK : c ∈ g.keys) (hpK : p ∈ g.keys)
    (hwf : WF g) : WF (addEdgeCore g c p) := by
  have hkeys : (addEdgeCore g c p).keys = g.keys := by
    unfold addEdgeCore
    rw [keys_modifyBranch, keys_modifyBranch]
  refine ⟨?_, ?_, ?_, ?_, ?_⟩
  · rw [hkeys]
    exact hwf.1
  · intro kv hkv
    obtain ⟨kv0, hkv0, _, hpar, hch⟩ := addEdgeCore_entries g c p kv hkv
    constructor
    · intro x hx
      rcases (hpar x).mp hx with h | ⟨_, rfl⟩
      · rw [hkeys]
        exact (hwf.2.1 kv0 hkv0).1 x h
      · rw [hkeys]
        exact hpK
    · intro x hx
      rcases (hch x).mp hx with h | ⟨_, rfl⟩
      · rw [hkeys]
        exact (hwf.2.1 kv0 hkv0).2 x h
      · rw [hkeys]
        exact hcK
  · exact Symm_addEdgeCore g c p hwf.2.2.1
  · apply entries_pred_addEdgeCore g c p (fun kv => kv.2.uid = kv.1) hwf.2.2.2.1
    · intro kv h
      show (addParentTo p kv.2).uid = kv.1
      rw [addParentTo_uid]
      exact h
    · intro kv h
      show (addChildTo c kv.2).uid = kv.1
      rw [addChildTo_uid]
      exact h
  · apply entries_pred_addEdgeCore g c p
      (fun kv => kv.2.parents.Nodup ∧ kv.2.children.Nodup) hwf.2.2.2.2
    · intro kv h
      refine ⟨addParentTo_nodup h.1, ?_⟩
      show (addParentTo p kv.2).children.Nodup
      rw [addParentTo_children]
      exact h.2
    · intro kv h
      refine ⟨?_, addChildTo_nodup h.2⟩
      show (addChildTo c kv.2).parents.Nodup
      rw [addChildTo_parents]
      exact h.1

/-- Claim C10 — `add_parent_child_relationship` performs no self-edge or
acyclicity check: on a well-formed graph, tracking name `n` and adding
the edge with child `n` and parent `n` returns `Ok`, puts the branch id
into its own parents and children lists, and the next `topological_sort`
fails with the cycle-detected error. -/
theorem claim_C10_self_edge (g : Dag) (hwf : WF g) (n : String) (br : Branch)
    (hfind : g.find_branch_by_name n = some br) :
    ∃ g2, g.add_parent_child_relationship n n = Except.ok g2 ∧
      br.uid ∈ g2.parentsOf br.uid ∧ br.uid ∈ g2.childrenOf br.uid ∧
      g2.topological_sort = Except.error cycleErrorMsg := by
  have hok := add_by_name_ok g n n br br hfind hfind
  have hkvex : ∃ kv, kv ∈ g.branches ∧ kv.2 = br := by
    unfold Dag.find_branch_by_name at hfind
    cases hf : g.branches.find? (fun kv => kv.2.git_name == n) with
    | none =>
      rw [hf] at hfind
      exact Option.noConfusion hfind
    | some kv =>
      rw [hf] at hfind
      injection hfind with h2
      exact ⟨kv, List.mem_of_find?_eq_some hf, h2⟩
  obtain ⟨kv, hkvm, hkv2⟩ := hkvex
  have huid : br.uid = kv.1 := by
    rw [← hkv2]
    exact hwf.2.2.2.1 kv hkvm
  have hgb : g.getBranch br.uid = some br := by
    rw [huid]
    show alookup kv.1 g.branches = some br
    rw [← hkv2]
    exact alookup_eq_some_of_mem hwf.1 (by rw [Prod.mk.eta]; exact hkvm)
  have hK : br.uid ∈ g.keys := by
    show br.uid ∈ g.branches.map Prod.fst
    rw [← alookup_isSome_iff_mem_keys]
    unfold Dag.getBranch at hgb
    rw [hgb]
    rfl
  have hgb2 : (addEdgeCore g br.uid br.uid).getBranch br.uid =
      some (addChildTo br.uid (addParentTo br.uid br)) := by
    unfold addEdgeCore
    rw [getBranch_modifyBranch, if_pos rfl, getBranch_modifyBranch, if_pos rfl, hgb]
    rfl
  refine ⟨addEdgeCore g br.uid br.uid, hok, ?_, ?_, ?_⟩
  · simp only [Dag.parentsOf, hgb2, addChildTo_parents]
    exact (mem_addParentTo_iff br.uid br.uid br).mpr (Or.inr rfl)
  · simp only [Dag.childrenOf, hgb2]
    exact (mem_addChildTo_iff br.uid br.uid _).mpr (Or.inr rfl)
  · apply topological_sort_cycle _ (WF_addEdgeCore g br.uid br.uid hK hK hwf)
    refine ⟨br.uid, Relation.TransGen.single ?_⟩
    refine ⟨addChildTo br.uid (addParentTo br.uid br), hgb2, ?_⟩
    rw [addChildTo_parents]
    exact (mem_addParentTo_iff br.uid br.uid br).mpr (Or.inr rfl)

theorem claim_C10_witness :
    ∃ g2, dagMain.add_parent_child_relationship "main" "main" = Except.ok g2 ∧
      1 ∈ g2.parentsOf 1 ∧ 1 ∈ g2.childrenOf 1 ∧
      g2.topological_sort = Except.error cycleErrorMsg :=
  claim_C10_self_edge dagMain (by decide) "main" (Branch.with_id 1 "main") (by rfl)
